import Mathlib

/-!
# Verification of `autocomplete.c`

A shallow embedding of the prefix autocompletion engine of `src/autocomplete.c`
and proofs about it.

Modelling conventions.

* A C string is the list of its bytes before the terminating NUL, read as
  `unsigned char` values; every byte is therefore in `1..255`.
* A `double` is a NaN, an infinity or a finite value. Only the comparison `>` of
  the source is needed, and comparisons of doubles are exact.
* `int` is the 32-bit type of the usual 64-bit platforms and `size_t` has 64
  bits. An `int` variable holds an integer (`Int`); the sum `right + left` is
  checked against the range of `int`, and a signed overflow, which C leaves
  undefined, makes the function fail (`none`). `(right + left) / 2` is C's
  truncating division. The conversions between `size_t` and `int` wrap.
* The text of a `term` sits in `char term[200]`, so it has fewer than 200
  bytes.
* An array of `term` is a list, and `nterms` is passed separately as in the
  source. A read outside the array makes the function fail (`none`).
* The loops recurse on a fuel that starts at `nterms`; running out of fuel is a
  failure (`none`).
* `qsort` is the C library's sort. It is a parameter `qsort` of the functions
  that call it, constrained by `QsortContract`: C specifies it only for a
  comparator that orders the array consistently.
* For the effect of `autocomplete` on memory, `autocomplete_mem` passes a memory
  of `struct term` objects, by address; `malloc` and `qsort` are parameters
  under `MallocContract` and `QsortMemContract`, and the out-parameters
  `*answer` and `*n_answer` are returned.
* `lowest_match_states` and `highest_match_states` list the states
  `(left, right)` of the iterations in unbounded integers, to be compared with
  `INT_MAX`.
-/

set_option linter.dupNamespace false

namespace Autocomplete

/-! ## Strings -/

/-- A NUL-terminated C string, given by the bytes that precede the terminator. -/
structure CString where
  bytes : List Nat
  wf : ∀ b ∈ bytes, 0 < b ∧ b < 256
deriving DecidableEq

/-- The C library `strlen`: number of bytes before the terminator. -/
def strlen (s : CString) : Nat := s.bytes.length

/-- Byte-level `strcmp`: the difference of the first pair of differing bytes, the end of a
list reading as the terminator `0`. -/
def strcmpBytes : List Nat → List Nat → Int
  | [], [] => 0
  | [], b :: _ => 0 - (b : Int)
  | a :: _, [] => (a : Int) - 0
  | a :: s1, b :: s2 => if a = b then strcmpBytes s1 s2 else (a : Int) - (b : Int)

/-- The C library `strcmp`. -/
def strcmp (s1 s2 : CString) : Int := strcmpBytes s1.bytes s2.bytes

/-- Byte-level `strncmp`: as `strcmpBytes`, but at most `n` bytes are compared. -/
def strncmpBytes : List Nat → List Nat → Nat → Int
  | _, _, 0 => 0
  | [], [], _ + 1 => 0
  | [], b :: _, _ + 1 => 0 - (b : Int)
  | a :: _, [], _ + 1 => (a : Int) - 0
  | a :: s1, b :: s2, n + 1 => if a = b then strncmpBytes s1 s2 n else (a : Int) - (b : Int)

/-- The C library `strncmp`. -/
def strncmp (s1 s2 : CString) (n : Nat) : Int := strncmpBytes s1.bytes s2.bytes n

/-- The text `t` starts with `p`: the bytes of `p` are the first bytes of `t`. -/
def startsWith (t p : CString) : Prop := p.bytes <+: t.bytes

instance (t p : CString) : Decidable (startsWith t p) := by
  unfold startsWith; infer_instance

/-! ## Machine integers -/

/-- Largest value of a 32-bit `int`. -/
def INT_MAX : Int := 2147483647

/-- Smallest value of a 32-bit `int`. -/
def INT_MIN : Int := -2147483648

/-- The integer is a value of type `int`. -/
def fitsInt (x : Int) : Prop := INT_MIN ≤ x ∧ x ≤ INT_MAX

instance (x : Int) : Decidable (fitsInt x) := by
  unfold fitsInt; infer_instance

/-- Conversion of a `size_t` to `int`, as in `int len_substr = strlen(substr)`: the value is
reduced modulo `2^32` into the range of `int`. -/
def int_of_size_t (n : Nat) : Int :=
  if (n : Int) % 4294967296 < 2147483648 then (n : Int) % 4294967296
  else (n : Int) % 4294967296 - 4294967296

/-- Conversion of an `int` to `size_t`, as for the third argument of `strncmp`: the value is
reduced modulo `2^64`. -/
def size_t_of_int (i : Int) : Nat := (i % 18446744073709551616).toNat

/-! ## Doubles -/

/-- A value of C type `double`, up to the sign of zero. -/
inductive Double where
  | nan
  | negInf
  | finite (q : Rat)
  | posInf
deriving DecidableEq

/-- The comparison `a > b` of two doubles: false as soon as one of them is a NaN. -/
def Double.gt : Double → Double → Bool
  | .nan, _ => false
  | _, .nan => false
  | .posInf, .posInf => false
  | .posInf, _ => true
  | _, .posInf => false
  | .negInf, _ => false
  | .finite _, .negInf => true
  | .finite a, .finite b => decide (b < a)

/-- The comparison `a >= b` of two doubles: false as soon as one of them is a NaN. -/
def Double.ge : Double → Double → Bool
  | .nan, _ => false
  | _, .nan => false
  | .posInf, _ => true
  | _, .negInf => true
  | .negInf, _ => false
  | .finite _, .posInf => false
  | .finite a, .finite b => decide (b ≤ a)

/-- The double is a NaN. -/
def Double.isNaN : Double → Bool
  | .nan => true
  | _ => false

/-! ## Terms and comparators -/

/-- The record `struct term` of the source: a text, held in `char term[200]`, and a weight. -/
structure term where
  term : CString
  weight : Double
  fits : strlen term < 200
deriving DecidableEq

/-- The comparator `compare_terms_lex` of the source: `strcmp` of the two texts. -/
def compare_terms_lex (a b : term) : Int := strcmp a.term b.term

/-- The comparator `compare_weight` of the source. -/
def compare_weight (A B : term) : Int :=
  if Double.gt A.weight B.weight then -1
  else if Double.gt B.weight A.weight then 1
  else 0

/-! ## The library sort -/

/-- The comparator orders the elements of `l` consistently: swapping the arguments flips the
sign, and `cmp a b ≤ 0` is transitive. This is what C requires of the comparator handed to
`qsort`. -/
def Consistent (cmp : term → term → Int) (l : List term) : Prop :=
  (∀ a ∈ l, ∀ b ∈ l, (cmp a b < 0 ↔ 0 < cmp b a) ∧ (cmp a b = 0 ↔ cmp b a = 0)) ∧
  (∀ a ∈ l, ∀ b ∈ l, ∀ c ∈ l, cmp a b ≤ 0 → cmp b c ≤ 0 → cmp a c ≤ 0)

instance (cmp : term → term → Int) (l : List term) : Decidable (Consistent cmp l) := by
  unfold Consistent; infer_instance

/-- What is assumed of the C library `qsort`: when the comparator is consistent on the array,
the result is a rearrangement of the array in ascending order of the comparator. The order of
elements that compare equal is left open, and so is the whole result for a comparator that is
not consistent, as in the C standard. -/
def QsortContract (qsort : (term → term → Int) → List term → List term) : Prop :=
  (∀ cmp l, Consistent cmp l → (qsort cmp l).Perm l) ∧
  (∀ cmp l, Consistent cmp l → (qsort cmp l).Pairwise (fun a b => cmp a b ≤ 0))

/-- The library sort keeps elements that compare equal in their original order. -/
def QsortStable (qsort : (term → term → Int) → List term → List term) : Prop :=
  ∀ cmp l, Consistent cmp l → ∀ a ∈ l,
    (qsort cmp l).filter (fun b => decide (cmp a b = 0)) = l.filter (fun b => decide (cmp a b = 0))

/-- Insertion of `x` in front of the first element that does not compare below it. -/
def insertBy (cmp : term → term → Int) (x : term) : List term → List term
  | [] => [x]
  | y :: ys => if cmp x y ≤ 0 then x :: y :: ys else y :: insertBy cmp x ys

/-- A stable instance of the library sort: insertion sort. -/
def insertionQsort (cmp : term → term → Int) : List term → List term
  | [] => []
  | x :: xs => insertBy cmp x (insertionQsort cmp xs)

/-- An instance of the library sort that is not stable: insertion sort of the reversed array,
which leaves elements that compare equal in reverse order. -/
def reversingQsort (cmp : term → term → Int) (l : List term) : List term :=
  insertionQsort cmp l.reverse

/-- An instance of the library sort that empties the array when the comparator is not
consistent, one of the outcomes C allows there; insertion sort otherwise. -/
def droppingQsort (cmp : term → term → Int) (l : List term) : List term :=
  if Consistent cmp l then insertionQsort cmp l else []

/-- An instance of the library sort that reverses the array when the comparator is not
consistent, one of the outcomes C allows there; insertion sort otherwise. -/
def flippingQsort (cmp : term → term → Int) (l : List term) : List term :=
  if Consistent cmp l then insertionQsort cmp l else l.reverse

/-! ## The store and the searches -/

/-- The array read `terms[i]` for an `int` index; `none` outside the array. -/
def index (terms : List term) (i : Int) : Option term :=
  if 0 ≤ i then terms[i.toNat]? else none

/-- The construction step of `read_in_terms`: the entries read from the file are sorted with
`compare_terms_lex`. Parsing the file is outside the model; `entries` is the parsed array. -/
def read_in_terms (qsort : (term → term → Int) → List term → List term)
    (entries : List term) : List term × Int :=
  (qsort compare_terms_lex entries, (entries.length : Int))

/-- The loop of `lowest_match`, from the state `left`, `right`. -/
def lowest_match_loop (terms : List term) (substr : CString) (len_substr : Int) :
    Nat → Int → Int → Option Int
  | 0, left, right => if left ≤ right then none else some left
  | fuel + 1, left, right =>
    if left ≤ right then
      if fitsInt (right + left) then
        let mid := Int.tdiv (right + left) 2
        match index terms mid with
        | none => none
        | some t =>
          if strncmp t.term substr (size_t_of_int len_substr) ≥ 0 then
            lowest_match_loop terms substr len_substr fuel left (mid - 1)
          else
            lowest_match_loop terms substr len_substr fuel (mid + 1) right
      else none
    else some left

/-- The function `lowest_match` of the source. The argument `nterms` is an `int`, and so is
`nterms - 1`. -/
def lowest_match (terms : List term) (nterms : Int) (substr : CString) : Option Int :=
  if fitsInt nterms ∧ fitsInt (nterms - 1) then
    lowest_match_loop terms substr (int_of_size_t (strlen substr)) nterms.toNat 0 (nterms - 1)
  else none

/-- The loop of `highest_match`, from the state `left`, `right`. -/
def highest_match_loop (terms : List term) (substr : CString) (len_substr : Int) :
    Nat → Int → Int → Option Int
  | 0, left, right => if left ≤ right then none else some right
  | fuel + 1, left, right =>
    if left ≤ right then
      if fitsInt (right + left) then
        let mid := Int.tdiv (right + left) 2
        match index terms mid with
        | none => none
        | some t =>
          if strncmp t.term substr (size_t_of_int len_substr) > 0 then
            highest_match_loop terms substr len_substr fuel left (mid - 1)
          else
            highest_match_loop terms substr len_substr fuel (mid + 1) right
      else none
    else some right

/-- The function `highest_match` of the source. The argument `nterms` is an `int`, and so is
`nterms - 1`. -/
def highest_match (terms : List term) (nterms : Int) (substr : CString) : Option Int :=
  if fitsInt nterms ∧ fitsInt (nterms - 1) then
    highest_match_loop terms substr (int_of_size_t (strlen substr)) nterms.toNat 0 (nterms - 1)
  else none

/-- The copy loop of `autocomplete`: entries `terms[low]`, ..., `terms[low + n - 1]`, each
copied field by field. -/
def copy_terms (terms : List term) (low : Int) : Nat → Option (List term)
  | 0 => some []
  | n + 1 =>
    match copy_terms terms low n, index terms ((n : Int) + low) with
    | some answer, some t =>
      some (answer ++ [{ term := t.term, weight := t.weight, fits := t.fits }])
    | _, _ => none

/-- The function `autocomplete` of the source: the pair of `*answer` and `*n_answer`.
A negative `*n_answer` is a failure: it would be handed to `malloc` and `qsort` as a size.
With `low` and `high` returned by the searches, `high - low + 1` and `i + low` are in the
range of `int`. -/
def autocomplete (qsort : (term → term → Int) → List term → List term)
    (terms : List term) (nterms : Int) (substr : CString) : Option (List term × Int) :=
  match lowest_match terms nterms substr, highest_match terms nterms substr with
  | some low, some high =>
    let n_answer := high - low + 1
    if n_answer < 0 then none
    else
      match copy_terms terms low n_answer.toNat with
      | some answer => some (qsort compare_weight answer, n_answer)
      | none => none
  | _, _ => none

/-- The common shape of the two search loops: the final state `(left, right)` when the branch
taken at `mid` is decided by `test`. Used to reason about both loops at once. -/
def searchLoop (terms : List term) (test : term → Bool) : Nat → Int → Int → Option (Int × Int)
  | 0, left, right => if left ≤ right then none else some (left, right)
  | fuel + 1, left, right =>
    if left ≤ right then
      if fitsInt (right + left) then
        match index terms (Int.tdiv (right + left) 2) with
        | none => none
        | some t =>
          if test t then searchLoop terms test fuel left (Int.tdiv (right + left) 2 - 1)
          else searchLoop terms test fuel (Int.tdiv (right + left) 2 + 1) right
      else none
    else some (left, right)

/-- The branch test of `lowest_match`. -/
def testLow (substr : CString) (len_substr : Nat) (t : term) : Bool :=
  decide (strncmp t.term substr len_substr ≥ 0)

/-- The branch test of `highest_match`. -/
def testHigh (substr : CString) (len_substr : Nat) (t : term) : Bool :=
  decide (strncmp t.term substr len_substr > 0)

/-- The entries that `autocomplete` copies into `*answer`, in the order of the copy, before
`qsort` is called; no entry when a search fails. -/
def copied (terms : List term) (nterms : Int) (substr : CString) : List term :=
  match lowest_match terms nterms substr, highest_match terms nterms substr with
  | some low, some high =>
    if high - low + 1 < 0 then []
    else
      match copy_terms terms low (high - low + 1).toNat with
      | some answer => answer
      | none => []
  | _, _ => []

/-- The entries of the store whose text starts with `substr`, in store order. -/
def matching (terms : List term) (substr : CString) : List term :=
  terms.filter (fun t => decide (startsWith t.term substr))

/-- No weight of the list is a NaN. -/
def NoNaN (terms : List term) : Prop := ∀ t ∈ terms, t.weight.isNaN = false

instance (terms : List term) : Decidable (NoNaN terms) := by
  unfold NoNaN; infer_instance

/-- The sequence is sorted descending by weight: `answer[i].weight >= answer[i+1].weight` for
every adjacent pair. -/
def RankedDescending (answer : List term) : Prop :=
  List.Chain' (fun a b => Double.ge a.weight b.weight = true) answer

/-- Descending order of a sequence is decided pair by pair. -/
def decRankedDescending : (answer : List term) → Decidable (RankedDescending answer)
  | [] => isTrue List.chain'_nil
  | [a] => isTrue (List.chain'_singleton a)
  | a :: b :: l =>
    match decEq (Double.ge a.weight b.weight) true, decRankedDescending (b :: l) with
    | isTrue h1, isTrue h2 => isTrue (List.chain'_cons.mpr ⟨h1, h2⟩)
    | isFalse h1, _ => isFalse (fun h => h1 (List.chain'_cons.mp h).1)
    | _, isFalse h2 => isFalse (fun h => h2 (List.chain'_cons.mp h).2)

instance (answer : List term) : Decidable (RankedDescending answer) :=
  decRankedDescending answer

/-- The store is sorted ascending by text: every adjacent pair is in order for
`compare_terms_lex`. -/
def SortedStore (terms : List term) : Prop :=
  List.Chain' (fun a b => compare_terms_lex a b ≤ 0) terms

/-- Sortedness of a store is decided pair by pair. -/
def decSortedStore : (terms : List term) → Decidable (SortedStore terms)
  | [] => isTrue List.chain'_nil
  | [a] => isTrue (List.chain'_singleton a)
  | a :: b :: l =>
    match Int.decLe (compare_terms_lex a b) 0, decSortedStore (b :: l) with
    | isTrue h1, isTrue h2 => isTrue (List.chain'_cons.mpr ⟨h1, h2⟩)
    | isFalse h1, _ => isFalse (fun h => h1 (List.chain'_cons.mp h).1)
    | _, isFalse h2 => isFalse (fun h => h2 (List.chain'_cons.mp h).2)

instance (terms : List term) : Decidable (SortedStore terms) := decSortedStore terms

/-! ## Sample data -/

/-- Builds a C string from explicit bytes; bytes outside `1..255` are dropped. -/
def mkString (l : List Nat) : CString :=
  ⟨l.filter (fun b => decide (0 < b ∧ b < 256)), by
    intro b hb
    simpa using (List.mem_filter.mp hb).2⟩

/-- The text "ant". -/
def s_ant : CString := mkString [97, 110, 116]
/-- The text "ape". -/
def s_ape : CString := mkString [97, 112, 101]
/-- The text "apex". -/
def s_apex : CString := mkString [97, 112, 101, 120]
/-- The text "bee". -/
def s_bee : CString := mkString [98, 101, 101]
/-- The text "ap". -/
def s_ap : CString := mkString [97, 112]
/-- The text "apple". -/
def s_apple : CString := mkString [97, 112, 112, 108, 101]
/-- The text "banana". -/
def s_banana : CString := mkString [98, 97, 110, 97, 110, 97]
/-- The text "car". -/
def s_car : CString := mkString [99, 97, 114]
/-- The empty text. -/
def s_empty : CString := mkString []

/-- The text "a". -/
def s_a : CString := mkString [97]
/-- The text "ab". -/
def s_ab : CString := mkString [97, 98]

/-- A text of `2^32 = 4294967296` bytes: "ab" followed by `2^32 - 2` times "a". -/
def longText : CString :=
  ⟨97 :: 98 :: List.replicate 4294967294 97, by
    intro b hb
    simp only [List.mem_cons, List.mem_replicate] at hb
    omega⟩

/-- The store `ant, ape, apex, bee` of the specification's scenario. -/
def store4 : List term :=
  [⟨s_ant, .finite 3, by decide⟩, ⟨s_ape, .finite 1, by decide⟩,
   ⟨s_apex, .finite 5, by decide⟩, ⟨s_bee, .finite 2, by decide⟩]

/-- The store `apple, banana` of the specification's no-match scenario. -/
def store2 : List term := [⟨s_apple, .finite 1, by decide⟩, ⟨s_banana, .finite 2, by decide⟩]

/-- The entries `bee, apex, ant, ape` in an order that is not sorted. -/
def entries4 : List term :=
  [⟨s_bee, .finite 2, by decide⟩, ⟨s_apex, .finite 5, by decide⟩,
   ⟨s_ant, .finite 3, by decide⟩, ⟨s_ape, .finite 1, by decide⟩]

/-- A sorted store `ant, ape` whose second weight is a NaN. -/
def storeNaN : List term := [⟨s_ant, .finite 1, by decide⟩, ⟨s_ape, .nan, by decide⟩]

/-- A sorted store `ant, bee` whose first weight is a NaN. -/
def storeNaNFirst : List term := [⟨s_ant, .nan, by decide⟩, ⟨s_bee, .finite 2, by decide⟩]

/-- A sorted store `a, ant`. -/
def storeA : List term := [⟨s_a, .finite 1, by decide⟩, ⟨s_ant, .finite 2, by decide⟩]

/-- A sorted store `ant, ap, ape` of weights 2.0, NaN, 1.0, which `compare_weight` does not
order consistently. -/
def storeMixed : List term :=
  [⟨s_ant, .finite 2, by decide⟩, ⟨s_ap, .nan, by decide⟩, ⟨s_ape, .finite 1, by decide⟩]

/-- A sorted store `a, ant, ap, ape, apex, apple` of weights 1.0, NaN, 5.0, 5.0, 0.0, 0.0. -/
def storeTieNaN : List term :=
  [⟨s_a, .finite 1, by decide⟩, ⟨s_ant, .nan, by decide⟩, ⟨s_ap, .finite 5, by decide⟩,
   ⟨s_ape, .finite 5, by decide⟩, ⟨s_apex, .finite 0, by decide⟩,
   ⟨s_apple, .finite 0, by decide⟩]

/-- A sorted store `ant, ape` with two equal weights. -/
def storeTie : List term := [⟨s_ant, .finite 1, by decide⟩, ⟨s_ape, .finite 1, by decide⟩]

/-! ## The states of the loops -/

/-- The states `(left, right)` in which the body of the loop of `lowest_match` is entered, in
order, computed with unbounded integers: the loop of `lowest_match_loop` without the check of
`right + left` against the range of `int`. -/
def lowest_match_states (terms : List term) (substr : CString) (len_substr : Int) :
    Nat → Int → Int → List (Int × Int)
  | 0, _, _ => []
  | fuel + 1, left, right =>
    if left ≤ right then
      let mid := Int.tdiv (right + left) 2
      (left, right) ::
        match index terms mid with
        | none => []
        | some t =>
          if strncmp t.term substr (size_t_of_int len_substr) ≥ 0 then
            lowest_match_states terms substr len_substr fuel left (mid - 1)
          else
            lowest_match_states terms substr len_substr fuel (mid + 1) right
    else []

/-- The states `(left, right)` in which the body of the loop of `highest_match` is entered, in
order, computed with unbounded integers: the loop of `highest_match_loop` without the check of
`right + left` against the range of `int`. -/
def highest_match_states (terms : List term) (substr : CString) (len_substr : Int) :
    Nat → Int → Int → List (Int × Int)
  | 0, _, _ => []
  | fuel + 1, left, right =>
    if left ≤ right then
      let mid := Int.tdiv (right + left) 2
      (left, right) ::
        match index terms mid with
        | none => []
        | some t =>
          if strncmp t.term substr (size_t_of_int len_substr) > 0 then
            highest_match_states terms substr len_substr fuel left (mid - 1)
          else
            highest_match_states terms substr len_substr fuel (mid + 1) right
    else []

/-- The states of the loop of `lowest_match` for a call `lowest_match(terms, nterms, substr)`. -/
def lowest_match_iterations (terms : List term) (nterms : Int) (substr : CString) :
    List (Int × Int) :=
  lowest_match_states terms substr (int_of_size_t (strlen substr)) nterms.toNat 0 (nterms - 1)

/-- The states of the loop of `highest_match` for a call `highest_match(terms, nterms, substr)`. -/
def highest_match_iterations (terms : List term) (nterms : Int) (substr : CString) :
    List (Int × Int) :=
  highest_match_states terms substr (int_of_size_t (strlen substr)) nterms.toNat 0 (nterms - 1)

/-- The common shape of the two lists of states, the branch being decided by `test`. -/
def searchStates (terms : List term) (test : term → Bool) : Nat → Int → Int → List (Int × Int)
  | 0, _, _ => []
  | fuel + 1, left, right =>
    if left ≤ right then
      (left, right) ::
        match index terms (Int.tdiv (right + left) 2) with
        | none => []
        | some t =>
          if test t then searchStates terms test fuel left (Int.tdiv (right + left) 2 - 1)
          else searchStates terms test fuel (Int.tdiv (right + left) 2 + 1) right
    else []

/-- A store of `2^30 + 1` copies of the entry `ant`. -/
def bigStore : List term := List.replicate 1073741825 ⟨s_ant, .finite 1, by decide⟩

/-! ## Memory -/

/-- The memory that holds the `struct term` objects: the object stored at each address, the
addresses counted in units of `sizeof(term)`; `none` where no object is stored. The memory is
finite: no object is stored at or beyond the length of the list. -/
abbrev Heap : Type := List (Option term)

/-- The object stored at address `a`. -/
def Heap.read (h : Heap) (a : Nat) : Option term := List.getD h a none

/-- The memory after the object `t` is stored at address `a`. -/
def Heap.write (h : Heap) (a : Nat) (t : term) : Heap :=
  List.set (h ++ List.replicate (a + 1 - List.length h) none) a (some t)

/-- The array of `n` objects at address `p`, when each of its cells holds an object. -/
def load (h : Heap) (p : Nat) : Nat → Option (List term)
  | 0 => some []
  | n + 1 =>
    match load h p n, h.read (p + n) with
    | some l, some t => some (l ++ [t])
    | _, _ => none

/-- The memory after the objects of `l` are stored from address `p` on. -/
def writeBlock (h : Heap) (p : Nat) : List term → Heap
  | [] => h
  | t :: l => writeBlock (h.write p t) (p + 1) l

/-- What is assumed of the C library `malloc`: the block it returns, given by its address,
overlaps no stored object. The allocation is taken to succeed. -/
def MallocContract (malloc : Heap → Nat → Nat) : Prop :=
  ∀ (h : Heap) (n i : Nat), i < n → h.read (malloc h n + i) = none

/-- An instance of `malloc`: the block starts where the memory in use ends. -/
def bumpMalloc (h : Heap) (_ : Nat) : Nat := List.length h

/-- What is assumed of the C library `qsort` as a function on memory, called on the array of
`n` objects at `base`: when the comparator is consistent on the array, the array is rearranged
in ascending order of the comparator and every object outside of it is left as it was. The order
of elements that compare equal is left open, and so is the whole memory for a comparator that
is not consistent, as in the C standard. -/
def QsortMemContract (qsort_mem : (term → term → Int) → Heap → Nat → Nat → Heap) : Prop :=
  ∀ (cmp : term → term → Int) (h : Heap) (base n : Nat) (l : List term),
    load h base n = some l → Consistent cmp l →
    (∃ l2 : List term, load (qsort_mem cmp h base n) base n = some l2 ∧ l2.Perm l ∧
      l2.Pairwise (fun a b => cmp a b ≤ 0)) ∧
    (∀ a : Nat, a < base ∨ base + n ≤ a → (qsort_mem cmp h base n).read a = h.read a)

/-- The rearrangement made by the library sort depends only on the contents of the array: two
arrays of the same contents, wherever they are in memory, are left with the same contents. -/
def QsortMemDeterministic (qsort_mem : (term → term → Int) → Heap → Nat → Nat → Heap) : Prop :=
  ∀ (cmp : term → term → Int) (h1 h2 : Heap) (base1 base2 n : Nat) (l : List term),
    load h1 base1 n = some l → load h2 base2 n = some l → Consistent cmp l →
    load (qsort_mem cmp h1 base1 n) base1 n = load (qsort_mem cmp h2 base2 n) base2 n

/-- The library sort in memory that rearranges its array as the function `qsort` does. -/
def blockQsort (qsort : (term → term → Int) → List term → List term)
    (cmp : term → term → Int) (h : Heap) (base n : Nat) : Heap :=
  match load h base n with
  | some l => writeBlock h base (qsort cmp l)
  | none => h

/-- An instance of the library sort in memory whose order of equal elements depends on the
address of the array: insertion sort, of the reversed array when the address is a multiple of
four. -/
def addressQsort (cmp : term → term → Int) (h : Heap) (base n : Nat) : Heap :=
  if base % 4 = 0 then blockQsort reversingQsort cmp h base n
  else blockQsort insertionQsort cmp h base n

/-- An instance of the library sort in memory that, when the comparator is not consistent,
stores the array one object below its place, one of the outcomes C allows there; insertion sort
otherwise. -/
def wildQsort (cmp : term → term → Int) (h : Heap) (base n : Nat) : Heap :=
  match load h base n with
  | some l =>
    if Consistent cmp l then writeBlock h base (insertionQsort cmp l)
    else writeBlock h (base - 1) l
  | none => h

/-- The copy loop of `autocomplete` in memory: for `i` from 0 to `n - 1`, the object read at
`terms[i + low]` is stored, field by field, at `(*answer)[i]`. -/
def copy_loop (terms : Nat) (low : Int) (answer : Nat) : Nat → Heap → Option Heap
  | 0, h => some h
  | n + 1, h =>
    match copy_loop terms low answer n h with
    | none => none
    | some h1 =>
      if 0 ≤ (n : Int) + low then
        match h1.read (terms + ((n : Int) + low).toNat) with
        | some t =>
          some (h1.write (answer + n) { term := t.term, weight := t.weight, fits := t.fits })
        | none => none
      else none

/-- The function `autocomplete` of the source as a function on memory. The array `terms` of
`nterms` objects is at the address `terms`; the searches only read it and are run on its
contents. The result is the memory after the call, with `*answer` and `*n_answer`. -/
def autocomplete_mem (malloc : Heap → Nat → Nat)
    (qsort_mem : (term → term → Int) → Heap → Nat → Nat → Heap)
    (h : Heap) (terms : Nat) (nterms : Int) (substr : CString) : Option (Heap × Nat × Int) :=
  match load h terms nterms.toNat with
  | none => none
  | some store =>
    match lowest_match store nterms substr, highest_match store nterms substr with
    | some low, some high =>
      let n_answer := high - low + 1
      if n_answer < 0 then none
      else
        let answer := malloc h n_answer.toNat
        match copy_loop terms low answer n_answer.toNat h with
        | some h1 => some (qsort_mem compare_weight h1 answer n_answer.toNat, answer, n_answer)
        | none => none
    | _, _ => none

/-- The store `ant, ape` with two equal weights, at address 0. -/
def heapTie : Heap := storeTie.map some

/-- The store `ant, ap, ape` of weights 2.0, NaN, 1.0, at address 0. -/
def heapMixed : Heap := storeMixed.map some

/-- The store `ant, ape, apex, bee`, at address 1, after an unused cell. -/
def heap4 : Heap := none :: store4.map some

/-! ## Facts about the string comparisons -/

theorem strcmpBytes_trans : ∀ (a b c : List Nat), (∀ x ∈ a, 0 < x) → (∀ x ∈ b, 0 < x) →
    strcmpBytes a b ≤ 0 → strcmpBytes b c ≤ 0 → strcmpBytes a c ≤ 0
  | [], _, [], _, _, _, _ => by simp [strcmpBytes]
  | [], _, z :: _, _, _, _, _ => by simp [strcmpBytes]
  | x :: _, [], _, ha, _, h1, _ => by
    have := ha x (by simp)
    simp [strcmpBytes] at h1
    omega
  | _ :: _, y :: _, [], _, hb, _, h2 => by
    have := hb y (by simp)
    simp [strcmpBytes] at h2
    omega
  | x :: a, y :: b, z :: c, ha, hb, h1, h2 => by
    have iha := strcmpBytes_trans a b c (fun v hv => ha v (by simp [hv]))
      (fun v hv => hb v (by simp [hv]))
    simp only [strcmpBytes] at h1 h2 ⊢
    split_ifs at h1 h2 ⊢ with e1 e2 e3 e3 e2 e3 e3
    all_goals first
      | exact iha h1 h2
      | omega

theorem strcmpBytes_refl : ∀ a : List Nat, strcmpBytes a a = 0
  | [] => by simp [strcmpBytes]
  | x :: a => by simp [strcmpBytes, strcmpBytes_refl a]

theorem strcmpBytes_swap : ∀ (a b : List Nat),
    (strcmpBytes a b < 0 ↔ 0 < strcmpBytes b a) ∧ (strcmpBytes a b = 0 ↔ strcmpBytes b a = 0)
  | [], [] => by simp [strcmpBytes]
  | [], y :: _ => by simp [strcmpBytes]
  | x :: _, [] => by simp [strcmpBytes]
  | x :: a, y :: b => by
    have ih := strcmpBytes_swap a b
    simp only [strcmpBytes]
    by_cases e : x = y
    · subst e; simpa using ih
    · have e2 : ¬ y = x := fun h => e h.symm
      simp only [e, e2, if_false]
      omega

theorem strncmpBytes_mono_ge : ∀ (n : Nat) (a b p : List Nat), (∀ x ∈ a, 0 < x) →
    (∀ x ∈ p, 0 < x) → strcmpBytes a b ≤ 0 → 0 ≤ strncmpBytes a p n → 0 ≤ strncmpBytes b p n
  | 0, _, _, _, _, _, _, _ => by simp [strncmpBytes]
  | _ + 1, [], [], _, _, _, _, h2 => h2
  | _ + 1, [], _ :: _, [], _, _, _, _ => by simp [strncmpBytes]
  | _ + 1, [], _, c :: _, _, hp, _, h2 => by
    have := hp c (by simp)
    simp [strncmpBytes] at h2
    omega
  | _ + 1, x :: _, [], _, ha, _, h1, _ => by
    have := ha x (by simp)
    simp [strcmpBytes] at h1
    omega
  | _ + 1, _ :: _, _ :: _, [], _, _, _, _ => by simp [strncmpBytes]
  | n + 1, x :: a, y :: b, c :: p, ha, hp, h1, h2 => by
    have ih := strncmpBytes_mono_ge n a b p (fun v hv => ha v (by simp [hv]))
      (fun v hv => hp v (by simp [hv]))
    simp only [strcmpBytes, strncmpBytes] at h1 h2 ⊢
    split_ifs at h1 h2 ⊢ with e1 e2 e3 e3 e2 e3 e3
    all_goals first
      | exact ih h1 h2
      | omega

theorem strncmpBytes_mono_gt : ∀ (n : Nat) (a b p : List Nat), (∀ x ∈ a, 0 < x) →
    (∀ x ∈ p, 0 < x) → strcmpBytes a b ≤ 0 → 0 < strncmpBytes a p n → 0 < strncmpBytes b p n
  | 0, _, _, _, _, _, _, h2 => by simp [strncmpBytes] at h2
  | _ + 1, [], [], _, _, _, _, h2 => h2
  | _ + 1, [], _ :: _, [], _, _, _, h2 => by simp [strncmpBytes] at h2
  | _ + 1, [], _, c :: _, _, hp, _, h2 => by
    have := hp c (by simp)
    simp [strncmpBytes] at h2
    omega
  | _ + 1, x :: _, [], _, ha, _, h1, _ => by
    have := ha x (by simp)
    simp [strcmpBytes] at h1
    omega
  | _ + 1, x :: _, y :: _, [], ha, _, h1, _ => by
    have := ha x (by simp)
    simp only [strcmpBytes, strncmpBytes] at h1 ⊢
    split_ifs at h1 <;> omega
  | n + 1, x :: a, y :: b, c :: p, ha, hp, h1, h2 => by
    have ih := strncmpBytes_mono_gt n a b p (fun v hv => ha v (by simp [hv]))
      (fun v hv => hp v (by simp [hv]))
    simp only [strcmpBytes, strncmpBytes] at h1 h2 ⊢
    split_ifs at h1 h2 ⊢ with e1 e2 e3 e3 e2 e3 e3
    all_goals first
      | exact ih h1 h2
      | omega

theorem strncmpBytes_eq_zero_iff : ∀ (p t : List Nat), (∀ x ∈ p, 0 < x) →
    (strncmpBytes t p p.length = 0 ↔ p <+: t)
  | [], _, _ => by simp [strncmpBytes]
  | c :: p, [], hp => by
    have := hp c (by simp)
    simp [strncmpBytes]
    omega
  | c :: p, x :: t, hp => by
    have ih := strncmpBytes_eq_zero_iff p t (fun v hv => hp v (by simp [hv]))
    simp only [strncmpBytes, List.length_cons, List.cons_prefix_cons]
    by_cases e : x = c
    · subst e; simpa using ih
    · have e2 : ¬ c = x := fun h => e h.symm
      simp only [e, e2, if_false, false_and, iff_false]
      omega

theorem CString.pos (s : CString) : ∀ x ∈ s.bytes, 0 < x := fun x hx => (s.wf x hx).1

theorem strncmp_eq_zero_iff (t p : CString) : strncmp t p (strlen p) = 0 ↔ startsWith t p :=
  strncmpBytes_eq_zero_iff p.bytes t.bytes p.pos

/-! ## Machine integers -/

theorem fitsInt_sum (n : Int) (hn : n ≤ 1073741824) (left right : Int) (h0 : 0 ≤ left)
    (hlr : left ≤ right) (h2 : right < n) : fitsInt (right + left) := by
  unfold fitsInt INT_MIN INT_MAX
  omega

theorem fitsInt_nterms (n : Nat) (hn : (n : Int) ≤ 2147483647) :
    fitsInt (n : Int) ∧ fitsInt ((n : Int) - 1) := by
  unfold fitsInt INT_MIN INT_MAX
  omega

/-- Below `2^32`, the length that reaches `strncmp` after the two conversions is the length
itself, or it is at least 200. -/
theorem size_t_of_int_of_size_t (n : Nat) (hn : n < 4294967296) :
    size_t_of_int (int_of_size_t n) = n ∨
      (200 ≤ n ∧ 200 ≤ size_t_of_int (int_of_size_t n)) := by
  unfold size_t_of_int int_of_size_t
  split_ifs with h
  · left; omega
  · right; omega

/-- Once the count exceeds the length of the first text, `strncmp` no longer depends on it. -/
theorem strncmpBytes_long : ∀ (t p : List Nat) (n m : Nat), t.length < n → t.length < m →
    strncmpBytes t p n = strncmpBytes t p m
  | _, _, 0, _, h, _ => by omega
  | _, _, _ + 1, 0, _, h => by omega
  | [], [], _ + 1, _ + 1, _, _ => by simp [strncmpBytes]
  | [], _ :: _, _ + 1, _ + 1, _, _ => by simp [strncmpBytes]
  | _ :: _, [], _ + 1, _ + 1, _, _ => by simp [strncmpBytes]
  | a :: t, b :: p, n + 1, m + 1, h1, h2 => by
    simp only [strncmpBytes]
    rw [strncmpBytes_long t p n m (by simpa using h1) (by simpa using h2)]

/-- For a prefix of fewer than `2^32` bytes, the comparison made by the searches is the
comparison on the first `strlen(substr)` bytes. -/
theorem strncmp_converted (t : term) (substr : CString) (h : strlen substr < 4294967296) :
    strncmp t.term substr (size_t_of_int (int_of_size_t (strlen substr))) =
      strncmp t.term substr (strlen substr) := by
  rcases size_t_of_int_of_size_t (strlen substr) h with heq | ⟨h1, h2⟩
  · rw [heq]
  · have hfits := t.fits
    simp only [strlen] at hfits h1 h2
    exact strncmpBytes_long _ _ _ _ (by simp only [strlen]; omega) (by simp only [strlen]; omega)

theorem testLow_converted (substr : CString) (h : strlen substr < 4294967296) :
    testLow substr (size_t_of_int (int_of_size_t (strlen substr))) =
      testLow substr (strlen substr) := by
  funext t
  simp only [testLow, strncmp_converted t substr h]

theorem testHigh_converted (substr : CString) (h : strlen substr < 4294967296) :
    testHigh substr (size_t_of_int (int_of_size_t (strlen substr))) =
      testHigh substr (strlen substr) := by
  funext t
  simp only [testHigh, strncmp_converted t substr h]

/-! ## The search loops -/

theorem lowest_match_loop_eq (terms : List term) (substr : CString) (len : Int) :
    ∀ (fuel : Nat) (left right : Int),
      lowest_match_loop terms substr len fuel left right =
        (searchLoop terms (testLow substr (size_t_of_int len)) fuel left right).map Prod.fst
  | 0, left, right => by
    simp only [lowest_match_loop, searchLoop]
    split_ifs <;> rfl
  | fuel + 1, left, right => by
    simp only [lowest_match_loop, searchLoop, testLow]
    split_ifs with h1 h2
    · cases index terms (Int.tdiv (right + left) 2) with
      | none => rfl
      | some t =>
        simp only [decide_eq_true_eq]
        split_ifs
        · exact lowest_match_loop_eq terms substr len fuel _ _
        · exact lowest_match_loop_eq terms substr len fuel _ _
    · rfl
    · rfl

theorem highest_match_loop_eq (terms : List term) (substr : CString) (len : Int) :
    ∀ (fuel : Nat) (left right : Int),
      highest_match_loop terms substr len fuel left right =
        (searchLoop terms (testHigh substr (size_t_of_int len)) fuel left right).map Prod.snd
  | 0, left, right => by
    simp only [highest_match_loop, searchLoop]
    split_ifs <;> rfl
  | fuel + 1, left, right => by
    simp only [highest_match_loop, searchLoop, testHigh]
    split_ifs with h1 h2
    · cases index terms (Int.tdiv (right + left) 2) with
      | none => rfl
      | some t =>
        simp only [decide_eq_true_eq]
        split_ifs
        · exact highest_match_loop_eq terms substr len fuel _ _
        · exact highest_match_loop_eq terms substr len fuel _ _
    · rfl
    · rfl

/-- The call `lowest_match(terms, n, substr)` on an array of `n` entries, `n` an `int`: the
loop starts from `left = 0`, `right = n - 1`. -/
theorem lowest_match_start (terms : List term) (substr : CString)
    (hn : (terms.length : Int) ≤ 2147483647) :
    lowest_match terms terms.length substr =
      (searchLoop terms (testLow substr (size_t_of_int (int_of_size_t (strlen substr))))
        (terms.length : Int).toNat 0 ((terms.length : Int) - 1)).map Prod.fst := by
  rw [lowest_match, if_pos (fitsInt_nterms _ hn), lowest_match_loop_eq]

theorem highest_match_start (terms : List term) (substr : CString)
    (hn : (terms.length : Int) ≤ 2147483647) :
    highest_match terms terms.length substr =
      (searchLoop terms (testHigh substr (size_t_of_int (int_of_size_t (strlen substr))))
        (terms.length : Int).toNat 0 ((terms.length : Int) - 1)).map Prod.snd := by
  rw [highest_match, if_pos (fitsInt_nterms _ hn), highest_match_loop_eq]

theorem mid_bounds (left right : Int) (h0 : 0 ≤ left) (h : left ≤ right) :
    left ≤ Int.tdiv (right + left) 2 ∧ Int.tdiv (right + left) 2 ≤ right := by
  rw [Int.tdiv_eq_ediv (by omega) (by omega)]
  omega

theorem index_in_range (terms : List term) (i : Int) (h0 : 0 ≤ i) (h1 : i < terms.length) :
    ∃ t, index terms i = some t ∧ terms[i.toNat]? = some t := by
  have hlt : i.toNat < terms.length := by omega
  refine ⟨terms[i.toNat], ?_, ?_⟩
  · simp [index, h0, List.getElem?_eq_getElem hlt]
  · exact List.getElem?_eq_getElem hlt

/-- On an array of at most `2^30` entries, without any other assumption, the loop ends in a
state `(k, k - 1)` inside the initial interval. -/
theorem searchLoop_bounds (terms : List term) (test : term → Bool)
    (hn : (terms.length : Int) ≤ 1073741824) :
    ∀ (fuel : Nat) (left right : Int), 0 ≤ left → left ≤ right + 1 →
      right < terms.length → right - left + 1 ≤ fuel →
      ∃ k : Int, searchLoop terms test fuel left right = some (k, k - 1) ∧
        left ≤ k ∧ k ≤ right + 1
  | 0, left, right, _, h1, _, h3 => by
    have : ¬ left ≤ right := by omega
    refine ⟨left, ?_, le_refl _, h1⟩
    simp only [searchLoop, this, if_false]
    congr 2; omega
  | fuel + 1, left, right, h0, h1, h2, h3 => by
    by_cases hlr : left ≤ right
    · obtain ⟨hm1, hm2⟩ := mid_bounds left right h0 hlr
      obtain ⟨t, ht, -⟩ := index_in_range terms (Int.tdiv (right + left) 2) (by omega) (by omega)
      simp only [searchLoop, hlr, if_true, fitsInt_sum _ hn left right h0 hlr h2, ht]
      by_cases htest : test t = true
      · obtain ⟨k, hk, hk1, hk2⟩ := searchLoop_bounds terms test hn fuel left
          (Int.tdiv (right + left) 2 - 1) h0 (by omega) (by omega) (by push_cast at h3; omega)
        exact ⟨k, by simp only [htest, if_true]; exact hk, hk1, by omega⟩
      · obtain ⟨k, hk, hk1, hk2⟩ := searchLoop_bounds terms test hn fuel
          (Int.tdiv (right + left) 2 + 1) right (by omega) (by omega) h2
          (by push_cast at h3; omega)
        exact ⟨k, by simp only [htest]; exact hk, by omega, hk2⟩
    · refine ⟨left, ?_, le_refl _, h1⟩
      simp only [searchLoop, hlr, if_false]
      congr 2; omega

/-- On an array of at most `2^30` entries where `test` is monotone along the indices, the loop
ends at the first index where `test` holds. -/
theorem searchLoop_spec (terms : List term) (test : term → Bool)
    (hn : (terms.length : Int) ≤ 1073741824)
    (hmono : ∀ (i j : Nat) (t u : term), i ≤ j → terms[i]? = some t → terms[j]? = some u →
      test t = true → test u = true) :
    ∀ (fuel : Nat) (left right : Int), 0 ≤ left → left ≤ right + 1 →
      right < terms.length → right - left + 1 ≤ fuel →
      (∀ (i : Nat) (t : term), (i : Int) < left → terms[i]? = some t → test t = false) →
      (∀ (i : Nat) (t : term), right < (i : Int) → terms[i]? = some t → test t = true) →
      ∃ k : Nat, searchLoop terms test fuel left right = some ((k : Int), (k : Int) - 1) ∧
        left ≤ (k : Int) ∧ (k : Int) ≤ right + 1 ∧
        (∀ (i : Nat) (t : term), i < k → terms[i]? = some t → test t = false) ∧
        (∀ (i : Nat) (t : term), k ≤ i → terms[i]? = some t → test t = true)
  | 0, left, right, h0, h1, _, h3, hlo, hhi => by
    have hn : ¬ left ≤ right := by omega
    refine ⟨left.toNat, ?_, by omega, by omega, ?_, ?_⟩
    · simp only [searchLoop, hn, if_false]
      congr 2 <;> omega
    · intro i t hi; exact hlo i t (by omega)
    · intro i t hi; exact hhi i t (by omega)
  | fuel + 1, left, right, h0, h1, h2, h3, hlo, hhi => by
    by_cases hlr : left ≤ right
    · obtain ⟨hm1, hm2⟩ := mid_bounds left right h0 hlr
      obtain ⟨t, ht, ht2⟩ :=
        index_in_range terms (Int.tdiv (right + left) 2) (by omega) (by omega)
      simp only [searchLoop, hlr, if_true, fitsInt_sum _ hn left right h0 hlr h2, ht]
      by_cases htest : test t = true
      · obtain ⟨k, hk, hk1, hk2, hk3, hk4⟩ := searchLoop_spec terms test hn hmono fuel left
          (Int.tdiv (right + left) 2 - 1) h0 (by omega) (by omega) (by push_cast at h3; omega)
          hlo (fun i u hi hu => hmono _ i t u (by omega) ht2 hu htest)
        exact ⟨k, by simp only [htest, if_true]; exact hk, hk1, by omega, hk3, hk4⟩
      · obtain ⟨k, hk, hk1, hk2, hk3, hk4⟩ := searchLoop_spec terms test hn hmono fuel
          (Int.tdiv (right + left) 2 + 1) right (by omega) (by omega) h2
          (by push_cast at h3; omega)
          (fun i u hi hu => by
            by_contra hc
            exact htest (hmono i _ u t (by omega) hu ht2 (by simpa using hc)))
          hhi
        exact ⟨k, by simp only [htest]; exact hk, by omega, hk2, hk3, hk4⟩
    · refine ⟨left.toNat, ?_, by omega, by omega, ?_, ?_⟩
      · simp only [searchLoop, hlr, if_false]
        congr 2 <;> omega
      · intro i t hi; exact hlo i t (by omega)
      · intro i t hi; exact hhi i t (by omega)

/-- When `test` fails on every entry and `2 * right` exceeds `INT_MAX`, the loop moves `left`
up until the sum `right + left` overflows: it does not return. -/
theorem searchLoop_overflow (terms : List term) (test : term → Bool)
    (hall : ∀ (i : Int) (t : term), index terms i = some t → test t = false) :
    ∀ (fuel : Nat) (left right : Int), 0 ≤ left → left ≤ right → right < terms.length →
      right - left + 1 ≤ fuel → 2147483647 < right + right →
      searchLoop terms test fuel left right = none
  | 0, left, right, _, h1, _, h3, _ => by
    push_cast at h3; omega
  | fuel + 1, left, right, h0, h1, h2, h3, h4 => by
    simp only [searchLoop, h1, if_true]
    by_cases hfit : fitsInt (right + left)
    · obtain ⟨hm1, hm2⟩ := mid_bounds left right h0 h1
      obtain ⟨t, ht, -⟩ := index_in_range terms (Int.tdiv (right + left) 2) (by omega) (by omega)
      have hlt : left < right := by
        unfold fitsInt INT_MAX at hfit
        omega
      have hmid : Int.tdiv (right + left) 2 < right := by
        rw [Int.tdiv_eq_ediv (by omega) (by omega)]
        omega
      simp only [hfit, if_true, ht, hall _ t ht]
      exact searchLoop_overflow terms test hall fuel _ right (by omega) (by omega) h2
        (by push_cast at h3; omega) h4
    · simp only [hfit, if_false]

/-! ## Sorted stores -/

theorem compare_terms_lex_trans (a b c : term) (h1 : compare_terms_lex a b ≤ 0)
    (h2 : compare_terms_lex b c ≤ 0) : compare_terms_lex a c ≤ 0 :=
  strcmpBytes_trans _ _ _ a.term.pos b.term.pos h1 h2

theorem SortedStore.pairwise {terms : List term} (h : SortedStore terms) :
    terms.Pairwise (fun a b => compare_terms_lex a b ≤ 0) := by
  haveI : IsTrans term (fun a b => compare_terms_lex a b ≤ 0) :=
    ⟨fun a b c => compare_terms_lex_trans a b c⟩
  exact List.chain'_iff_pairwise.mp h

theorem SortedStore.le_of_le {terms : List term} (h : SortedStore terms) (i j : Nat)
    (t u : term) (hij : i ≤ j) (ht : terms[i]? = some t) (hu : terms[j]? = some u) :
    compare_terms_lex t u ≤ 0 := by
  obtain ⟨hi, rfl⟩ := List.getElem?_eq_some.mp ht
  obtain ⟨hj, rfl⟩ := List.getElem?_eq_some.mp hu
  rcases Nat.lt_or_eq_of_le hij with hlt | heq
  · exact List.pairwise_iff_getElem.mp h.pairwise i j hi hj hlt
  · subst heq
    simp [compare_terms_lex, strcmp, strcmpBytes_refl]

theorem testLow_mono {terms : List term} (h : SortedStore terms) (substr : CString) (len : Nat)
    (i j : Nat) (t u : term) (hij : i ≤ j) (ht : terms[i]? = some t) (hu : terms[j]? = some u)
    (hl : testLow substr len t = true) : testLow substr len u = true := by
  simp only [testLow, decide_eq_true_eq, ge_iff_le] at hl ⊢
  exact strncmpBytes_mono_ge len _ _ _ t.term.pos substr.pos (h.le_of_le i j t u hij ht hu) hl

theorem testHigh_mono {terms : List term} (h : SortedStore terms) (substr : CString) (len : Nat)
    (i j : Nat) (t u : term) (hij : i ≤ j) (ht : terms[i]? = some t) (hu : terms[j]? = some u)
    (hl : testHigh substr len t = true) : testHigh substr len u = true := by
  simp only [testHigh, decide_eq_true_eq, gt_iff_lt] at hl ⊢
  exact strncmpBytes_mono_gt len _ _ _ t.term.pos substr.pos (h.le_of_le i j t u hij ht hu) hl

/-- Start of the search over the whole array: the loop ends at the first index where `test`
holds, provided `test` is monotone along the indices. -/
theorem searchLoop_whole (terms : List term) (test : term → Bool)
    (hn : (terms.length : Int) ≤ 1073741824)
    (hmono : ∀ (i j : Nat) (t u : term), i ≤ j → terms[i]? = some t → terms[j]? = some u →
      test t = true → test u = true) :
    ∃ k : Nat, searchLoop terms test (terms.length : Int).toNat 0 ((terms.length : Int) - 1) =
        some ((k : Int), (k : Int) - 1) ∧ k ≤ terms.length ∧
      (∀ (i : Nat) (t : term), i < k → terms[i]? = some t → test t = false) ∧
      (∀ (i : Nat) (t : term), k ≤ i → terms[i]? = some t → test t = true) := by
  obtain ⟨k, hk, -, hk2, hk3, hk4⟩ := searchLoop_spec terms test hn hmono
    (terms.length : Int).toNat 0 ((terms.length : Int) - 1) (le_refl _) (by omega) (by omega)
    (by simp)
    (fun i t hi _ => by omega)
    (fun i t hi ht => by
      have := (List.getElem?_eq_some.mp ht).1
      omega)
  exact ⟨k, hk, by omega, hk3, hk4⟩

/-- Value of `lowest_match` on a sorted store: the first index whose truncated comparison
with the prefix is not negative. -/
theorem lowest_match_sorted {terms : List term} (h : SortedStore terms) (substr : CString)
    (hn : (terms.length : Int) ≤ 1073741824) (hp : strlen substr < 4294967296) :
    ∃ k : Nat, lowest_match terms terms.length substr = some (k : Int) ∧ k ≤ terms.length ∧
      (∀ (i : Nat) (t : term), i < k → terms[i]? = some t →
        strncmp t.term substr (strlen substr) < 0) ∧
      (∀ (i : Nat) (t : term), k ≤ i → terms[i]? = some t →
        0 ≤ strncmp t.term substr (strlen substr)) := by
  obtain ⟨k, hk, hk2, hk3, hk4⟩ := searchLoop_whole terms (testLow substr (strlen substr)) hn
    (testLow_mono h substr (strlen substr))
  refine ⟨k, ?_, hk2, ?_, ?_⟩
  · rw [lowest_match_start terms substr (by omega), testLow_converted substr hp, hk]; rfl
  · intro i t hi ht
    have := hk3 i t hi ht
    simpa [testLow] using this
  · intro i t hi ht
    have := hk4 i t hi ht
    simpa [testLow] using this

/-- Value of `highest_match` on a sorted store: one less than the first index whose truncated
comparison with the prefix is positive. -/
theorem highest_match_sorted {terms : List term} (h : SortedStore terms) (substr : CString)
    (hn : (terms.length : Int) ≤ 1073741824) (hp : strlen substr < 4294967296) :
    ∃ k : Nat, highest_match terms terms.length substr = some ((k : Int) - 1) ∧
      k ≤ terms.length ∧
      (∀ (i : Nat) (t : term), i < k → terms[i]? = some t →
        strncmp t.term substr (strlen substr) ≤ 0) ∧
      (∀ (i : Nat) (t : term), k ≤ i → terms[i]? = some t →
        0 < strncmp t.term substr (strlen substr)) := by
  obtain ⟨k, hk, hk2, hk3, hk4⟩ := searchLoop_whole terms (testHigh substr (strlen substr)) hn
    (testHigh_mono h substr (strlen substr))
  refine ⟨k, ?_, hk2, ?_, ?_⟩
  · rw [highest_match_start terms substr (by omega), testHigh_converted substr hp, hk]; rfl
  · intro i t hi ht
    have := hk3 i t hi ht
    simpa [testHigh] using this
  · intro i t hi ht
    have := hk4 i t hi ht
    simpa [testHigh] using this

/-- On a sorted store the two searches delimit the matches: `lowest_match` is `lo`,
`highest_match` is `hi - 1`, and the entries that start with the prefix are exactly those at
the indices `lo ≤ i < hi`. -/
theorem match_range {terms : List term} (h : SortedStore terms) (substr : CString)
    (hn : (terms.length : Int) ≤ 1073741824) (hp : strlen substr < 4294967296) :
    ∃ lo hi : Nat, lowest_match terms terms.length substr = some (lo : Int) ∧
      highest_match terms terms.length substr = some ((hi : Int) - 1) ∧
      lo ≤ hi ∧ hi ≤ terms.length ∧
      (∀ (i : Nat) (t : term), i < lo → terms[i]? = some t →
        strncmp t.term substr (strlen substr) < 0) ∧
      (∀ (i : Nat) (t : term), hi ≤ i → terms[i]? = some t →
        0 < strncmp t.term substr (strlen substr)) ∧
      (∀ (i : Nat) (t : term), terms[i]? = some t →
        ((lo ≤ i ∧ i < hi) ↔ startsWith t.term substr)) := by
  obtain ⟨lo, hlo, hlo2, hlo3, hlo4⟩ := lowest_match_sorted h substr hn hp
  obtain ⟨hi, hhi, hhi2, hhi3, hhi4⟩ := highest_match_sorted h substr hn hp
  refine ⟨lo, hi, hlo, hhi, ?_, hhi2, hlo3, hhi4, ?_⟩
  · by_contra hc
    have hlt : hi < terms.length := by omega
    have h1 := hlo3 hi terms[hi] (by omega) (List.getElem?_eq_getElem hlt)
    have h2 := hhi4 hi terms[hi] (le_refl _) (List.getElem?_eq_getElem hlt)
    omega
  · intro i t ht
    rw [← strncmp_eq_zero_iff]
    constructor
    · rintro ⟨h1, h2⟩
      have := hlo4 i t h1 ht
      have := hhi3 i t h2 ht
      omega
    · intro h0
      constructor
      · by_contra hc
        have := hlo3 i t (by omega) ht
        omega
      · by_contra hc
        have := hhi4 i t (by omega) ht
        omega

/-! ## The copy loop and the result of `autocomplete` -/

theorem copy_terms_eq (terms : List term) (lo : Nat) :
    ∀ n : Nat, lo + n ≤ terms.length →
      copy_terms terms (lo : Int) n = some ((terms.drop lo).take n)
  | 0, _ => by simp [copy_terms]
  | n + 1, h => by
    have ih := copy_terms_eq terms lo n (by omega)
    have hlt : n + lo < terms.length := by omega
    have hidx : index terms ((n : Int) + (lo : Int)) = some terms[n + lo] := by
      have h0 : (0 : Int) ≤ (n : Int) + (lo : Int) := by omega
      have h1 : ((n : Int) + (lo : Int)).toNat = n + lo := by omega
      simp only [index, h0, if_true, h1]
      exact List.getElem?_eq_getElem hlt
    have hd : (terms.drop lo)[n]? = some terms[n + lo] := by
      rw [List.getElem?_drop, Nat.add_comm lo n]
      exact List.getElem?_eq_getElem hlt
    simp only [copy_terms, ih, hidx]
    rw [List.take_succ, hd]
    rfl

theorem filter_eq_slice (terms : List term) (p : term → Bool) (lo hi : Nat) (hle : lo ≤ hi)
    (hrange : ∀ (i : Nat) (t : term), terms[i]? = some t → ((lo ≤ i ∧ i < hi) ↔ p t = true)) :
    terms.filter p = (terms.drop lo).take (hi - lo) := by
  have h1 : (terms.take lo).filter p = [] := by
    rw [List.filter_eq_nil_iff]
    intro a ha
    obtain ⟨j, hj⟩ := List.mem_iff_getElem?.mp ha
    rw [List.getElem?_take] at hj
    split_ifs at hj with hjlo
    rw [← hrange j a hj]; omega
  have h2 : ((terms.drop lo).take (hi - lo)).filter p = (terms.drop lo).take (hi - lo) := by
    rw [List.filter_eq_self]
    intro a ha
    obtain ⟨j, hj⟩ := List.mem_iff_getElem?.mp ha
    rw [List.getElem?_take] at hj
    split_ifs at hj with hjlo
    rw [List.getElem?_drop] at hj
    rw [← hrange (lo + j) a hj]; omega
  have h3 : ((terms.drop lo).drop (hi - lo)).filter p = [] := by
    rw [List.filter_eq_nil_iff]
    intro a ha
    obtain ⟨j, hj⟩ := List.mem_iff_getElem?.mp ha
    rw [List.getElem?_drop, List.getElem?_drop] at hj
    rw [← hrange _ a hj]; omega
  calc terms.filter p
      = (terms.take lo ++ ((terms.drop lo).take (hi - lo) ++ (terms.drop lo).drop (hi - lo))).filter p := by
        rw [List.take_append_drop, List.take_append_drop]
    _ = (terms.drop lo).take (hi - lo) := by
        rw [List.filter_append, List.filter_append, h1, h2, h3]; simp

/-- A prefix that some entry starts with has fewer than 200 bytes. -/
theorem strlen_of_match (terms : List term) (substr : CString)
    (hex : ∃ t ∈ terms, startsWith t.term substr) : strlen substr < 4294967296 := by
  obtain ⟨t, -, hst⟩ := hex
  have h1 := List.IsPrefix.length_le hst
  have h2 := t.fits
  simp only [strlen] at h2 ⊢
  omega

/-- On a sorted store of at most `2^30` entries, with a prefix of fewer than `2^32` bytes,
`autocomplete` hands to the library sort exactly the entries that start with the prefix, in
store order, and `*n_answer` is their number. -/
theorem autocomplete_sorted (qsort : (term → term → Int) → List term → List term)
    {terms : List term} (h : SortedStore terms) (substr : CString)
    (hn : (terms.length : Int) ≤ 1073741824) (hp : strlen substr < 4294967296) :
    autocomplete qsort terms terms.length substr =
      some (qsort compare_weight (matching terms substr), ((matching terms substr).length : Int)) := by
  obtain ⟨lo, hi, hlo, hhi, hle, hlen, -, -, hrange⟩ := match_range h substr hn hp
  have hslice : matching terms substr = (terms.drop lo).take (hi - lo) :=
    filter_eq_slice terms _ lo hi hle (fun i t ht => by
      rw [hrange i t ht]; simp)
  have hn : ((hi : Int) - 1 - (lo : Int) + 1).toNat = hi - lo := by omega
  have hcopy := copy_terms_eq terms lo (hi - lo) (by omega)
  have hneg : ¬ ((hi : Int) - 1 - (lo : Int) + 1 < 0) := by omega
  have hlength : (((terms.drop lo).take (hi - lo)).length : Int) = (hi : Int) - 1 - (lo : Int) + 1 := by
    rw [List.length_take, List.length_drop]
    omega
  simp only [autocomplete, hlo, hhi, hneg, if_false, hn, hcopy, hslice, hlength]


/-- On a sorted store of at most `2^30` entries, with a prefix of fewer than `2^32` bytes, the
entries that `autocomplete` copies are the entries that start with the prefix. -/
theorem copied_sorted {terms : List term} (h : SortedStore terms) (substr : CString)
    (hn : (terms.length : Int) ≤ 1073741824) (hp : strlen substr < 4294967296) :
    copied terms terms.length substr = matching terms substr := by
  obtain ⟨lo, hi, hlo, hhi, hle, hlen, -, -, hrange⟩ := match_range h substr hn hp
  have hslice : matching terms substr = (terms.drop lo).take (hi - lo) :=
    filter_eq_slice terms _ lo hi hle (fun i t ht => by
      rw [hrange i t ht]; simp)
  have hn2 : ((hi : Int) - 1 - (lo : Int) + 1).toNat = hi - lo := by omega
  have hcopy := copy_terms_eq terms lo (hi - lo) (by omega)
  have hneg : ¬ ((hi : Int) - 1 - (lo : Int) + 1 < 0) := by omega
  simp only [copied, hlo, hhi, hneg, if_false, hn2, hcopy, hslice]


/-! ## Doubles and the weight comparator -/

theorem Double.gt_asymm (a b : Double) (h : Double.gt a b = true) : Double.gt b a = false := by
  cases a <;> cases b <;> simp_all [Double.gt]
  exact le_of_lt h

theorem Double.not_gt_iff_ge (a b : Double) (ha : a.isNaN = false) (hb : b.isNaN = false) :
    Double.gt b a = false ↔ Double.ge a b = true := by
  cases a <;> cases b <;> simp_all [Double.gt, Double.ge, Double.isNaN]

theorem Double.ge_trans (a b c : Double) (h1 : Double.ge a b = true) (h2 : Double.ge b c = true) :
    Double.ge a c = true := by
  cases a <;> cases b <;> cases c <;> simp_all [Double.ge]
  exact le_trans h2 h1

theorem Double.ge_antisymm (a b : Double) (h1 : Double.ge a b = true) (h2 : Double.ge b a = true) :
    a = b := by
  cases a <;> cases b <;> simp_all [Double.ge]
  exact le_antisymm h2 h1

theorem Double.ge_refl (a : Double) (ha : a.isNaN = false) : Double.ge a a = true := by
  cases a <;> simp_all [Double.ge, Double.isNaN]

theorem Double.ge_not_nan (a b : Double) (h : Double.ge a b = true) :
    a.isNaN = false ∧ b.isNaN = false := by
  cases a <;> cases b <;> simp_all [Double.ge, Double.isNaN]

theorem compare_weight_neg_iff (a b : term) :
    compare_weight a b < 0 ↔ Double.gt a.weight b.weight = true := by
  unfold compare_weight
  split_ifs <;> simp_all

theorem compare_weight_pos_iff (a b : term) :
    0 < compare_weight a b ↔ Double.gt b.weight a.weight = true := by
  unfold compare_weight
  split_ifs with h1 h2
  · have := Double.gt_asymm _ _ h1
    simp_all
  · simp_all
  · simp_all

theorem compare_weight_le_iff (a b : term) :
    compare_weight a b ≤ 0 ↔ Double.gt b.weight a.weight = false := by
  have := compare_weight_pos_iff a b
  constructor
  · intro h
    by_contra hc
    have : 0 < compare_weight a b := this.mpr (by simpa using hc)
    omega
  · intro h
    by_contra hc
    have := this.mp (by omega)
    simp_all

theorem compare_weight_swap (a b : term) :
    (compare_weight a b < 0 ↔ 0 < compare_weight b a) ∧
      (compare_weight a b = 0 ↔ compare_weight b a = 0) := by
  have h1 := compare_weight_neg_iff a b
  have h2 := compare_weight_pos_iff b a
  have h3 := compare_weight_neg_iff b a
  have h4 := compare_weight_pos_iff a b
  constructor
  · rw [h1, h2]
  · constructor
    · intro h
      have : ¬ compare_weight b a < 0 := fun hc => by
        have := h4.mpr (h3.mp hc); omega
      have : ¬ 0 < compare_weight b a := fun hc => by
        have := h1.mpr (h2.mp hc); omega
      omega
    · intro h
      have : ¬ compare_weight a b < 0 := fun hc => by
        have := h2.mpr (h1.mp hc); omega
      have : ¬ 0 < compare_weight a b := fun hc => by
        have := h3.mpr (h4.mp hc); omega
      omega

/-- No weight in the list is a NaN. -/
theorem compare_weight_consistent (l : List term)
    (hnan : ∀ t ∈ l, t.weight.isNaN = false) : Consistent compare_weight l := by
  refine ⟨fun a _ b _ => compare_weight_swap a b, ?_⟩
  intro a ha b hb c hc h1 h2
  rw [compare_weight_le_iff, Double.not_gt_iff_ge _ _ (hnan _ ‹_›) (hnan _ ‹_›)] at h1 h2 ⊢
  exact Double.ge_trans _ _ _ h1 h2

theorem compare_weight_eq_zero_iff (a b : term) (ha : a.weight.isNaN = false)
    (hb : b.weight.isNaN = false) : compare_weight a b = 0 ↔ a.weight = b.weight := by
  constructor
  · intro h
    have h1 : compare_weight a b ≤ 0 := by omega
    have h2 : compare_weight b a ≤ 0 := by
      have := (compare_weight_swap a b).2.mp h; omega
    rw [compare_weight_le_iff, Double.not_gt_iff_ge _ _ ha hb] at h1
    rw [compare_weight_le_iff, Double.not_gt_iff_ge _ _ hb ha] at h2
    exact Double.ge_antisymm _ _ h1 h2
  · intro h
    have h1 : compare_weight a b ≤ 0 := by
      rw [compare_weight_le_iff, Double.not_gt_iff_ge _ _ ha hb, h]
      exact Double.ge_refl _ hb
    have h2 : compare_weight b a ≤ 0 := by
      rw [compare_weight_le_iff, Double.not_gt_iff_ge _ _ hb ha, h]
      exact Double.ge_refl _ hb
    have := (compare_weight_swap a b).1
    have := (compare_weight_swap b a).1
    omega

theorem compare_terms_lex_consistent (l : List term) : Consistent compare_terms_lex l :=
  ⟨fun _ _ _ _ => strcmpBytes_swap _ _, fun a _ b _ c _ => compare_terms_lex_trans a b c⟩

/-! ## Two instances of the library sort -/

theorem insertBy_perm (cmp : term → term → Int) (x : term) :
    ∀ l : List term, (insertBy cmp x l).Perm (x :: l)
  | [] => by simp [insertBy]
  | y :: ys => by
    unfold insertBy
    split_ifs
    · exact List.Perm.refl _
    · exact ((insertBy_perm cmp x ys).cons y).trans (List.Perm.swap x y ys)

theorem insertionQsort_perm (cmp : term → term → Int) :
    ∀ l : List term, (insertionQsort cmp l).Perm l
  | [] => by simp [insertionQsort]
  | x :: xs => by
    unfold insertionQsort
    exact (insertBy_perm cmp x _).trans ((insertionQsort_perm cmp xs).cons x)

theorem insertBy_pairwise (cmp : term → term → Int) (L : List term) (hc : Consistent cmp L)
    (x : term) (hx : x ∈ L) :
    ∀ l : List term, (∀ y ∈ l, y ∈ L) → l.Pairwise (fun a b => cmp a b ≤ 0) →
      (insertBy cmp x l).Pairwise (fun a b => cmp a b ≤ 0)
  | [], _, _ => by simp [insertBy]
  | y :: ys, hsub, hp => by
    have hy : y ∈ L := hsub y (by simp)
    obtain ⟨hy2, hp2⟩ := List.pairwise_cons.mp hp
    unfold insertBy
    split_ifs with hxy
    · refine List.pairwise_cons.mpr ⟨?_, hp⟩
      intro z hz
      rcases List.mem_cons.mp hz with rfl | hz
      · exact hxy
      · exact hc.2 x hx y hy z (hsub z (by simp [hz])) hxy (hy2 z hz)
    · refine List.pairwise_cons.mpr ⟨?_, insertBy_pairwise cmp L hc x hx ys
        (fun z hz => hsub z (by simp [hz])) hp2⟩
      intro z hz
      rcases List.mem_cons.mp ((insertBy_perm cmp x ys).mem_iff.mp hz) with rfl | hz
      · have := (hc.1 z hx y hy).1
        have := (hc.1 y hy z hx).1
        omega
      · exact hy2 z hz

theorem insertionQsort_pairwise (cmp : term → term → Int) (L : List term)
    (hc : Consistent cmp L) :
    ∀ l : List term, (∀ y ∈ l, y ∈ L) →
      (insertionQsort cmp l).Pairwise (fun a b => cmp a b ≤ 0)
  | [], _ => by simp [insertionQsort]
  | x :: xs, hsub => by
    unfold insertionQsort
    exact insertBy_pairwise cmp L hc x (hsub x (by simp)) _
      (fun y hy => hsub y (by simp [(insertionQsort_perm cmp xs).mem_iff.mp hy]))
      (insertionQsort_pairwise cmp L hc xs (fun y hy => hsub y (by simp [hy])))

theorem insertionQsort_contract : QsortContract insertionQsort :=
  ⟨fun cmp l _ => insertionQsort_perm cmp l,
   fun cmp l hc => insertionQsort_pairwise cmp l hc l (fun _ h => h)⟩

theorem Consistent.reverse {cmp : term → term → Int} {l : List term} (h : Consistent cmp l) :
    Consistent cmp l.reverse :=
  ⟨fun a ha b hb => h.1 a (List.mem_reverse.mp ha) b (List.mem_reverse.mp hb),
   fun a ha b hb c hc =>
    h.2 a (List.mem_reverse.mp ha) b (List.mem_reverse.mp hb) c (List.mem_reverse.mp hc)⟩

theorem reversingQsort_contract : QsortContract reversingQsort :=
  ⟨fun cmp l _ => (insertionQsort_perm cmp l.reverse).trans (List.reverse_perm l),
   fun cmp l hc => insertionQsort_pairwise cmp l.reverse hc.reverse l.reverse (fun _ h => h)⟩

theorem insertBy_filter (cmp : term → term → Int) (L : List term) (hc : Consistent cmp L)
    (a : term) (ha : a ∈ L) (x : term) (hx : x ∈ L) :
    ∀ l : List term, (∀ y ∈ l, y ∈ L) →
      (insertBy cmp x l).filter (fun b => decide (cmp a b = 0)) =
        (x :: l).filter (fun b => decide (cmp a b = 0))
  | [], _ => by simp [insertBy]
  | y :: ys, hsub => by
    have hy : y ∈ L := hsub y (by simp)
    have ih := insertBy_filter cmp L hc a ha x hx ys (fun z hz => hsub z (by simp [hz]))
    unfold insertBy
    split_ifs with hxy
    · rfl
    · rw [List.filter_cons, ih]
      by_cases hay : cmp a y = 0
      · have hax : ¬ cmp a x = 0 := fun hax => by
          have h1 : cmp x a ≤ 0 := by
            have := (hc.1 a ha x hx).2.mp hax; omega
          have := hc.2 x hx a ha y hy h1 (by omega)
          omega
        simp [List.filter_cons, hay, hax]
      · simp [List.filter_cons, hay]

theorem insertionQsort_filter (cmp : term → term → Int) (L : List term) (hc : Consistent cmp L)
    (a : term) (ha : a ∈ L) :
    ∀ l : List term, (∀ y ∈ l, y ∈ L) →
      (insertionQsort cmp l).filter (fun b => decide (cmp a b = 0)) =
        l.filter (fun b => decide (cmp a b = 0))
  | [], _ => by simp [insertionQsort]
  | x :: xs, hsub => by
    unfold insertionQsort
    rw [insertBy_filter cmp L hc a ha x (hsub x (by simp)) _
      (fun y hy => hsub y (by simp [(insertionQsort_perm cmp xs).mem_iff.mp hy]))]
    rw [List.filter_cons, List.filter_cons,
      insertionQsort_filter cmp L hc a ha xs (fun y hy => hsub y (by simp [hy]))]

theorem insertionQsort_stable : QsortStable insertionQsort :=
  fun cmp l hc a ha => insertionQsort_filter cmp l hc a ha l (fun _ h => h)

theorem droppingQsort_eq (cmp : term → term → Int) (l : List term) (hc : Consistent cmp l) :
    droppingQsort cmp l = insertionQsort cmp l := by
  simp only [droppingQsort, hc, if_true]

theorem droppingQsort_contract : QsortContract droppingQsort :=
  ⟨fun cmp l hc => by rw [droppingQsort_eq cmp l hc]; exact insertionQsort_perm cmp l,
   fun cmp l hc => by
    rw [droppingQsort_eq cmp l hc]
    exact insertionQsort_pairwise cmp l hc l (fun _ h => h)⟩

theorem flippingQsort_eq (cmp : term → term → Int) (l : List term) (hc : Consistent cmp l) :
    flippingQsort cmp l = insertionQsort cmp l := by
  simp only [flippingQsort, hc, if_true]

theorem flippingQsort_contract : QsortContract flippingQsort :=
  ⟨fun cmp l hc => by rw [flippingQsort_eq cmp l hc]; exact insertionQsort_perm cmp l,
   fun cmp l hc => by
    rw [flippingQsort_eq cmp l hc]
    exact insertionQsort_pairwise cmp l hc l (fun _ h => h)⟩

theorem flippingQsort_stable : QsortStable flippingQsort :=
  fun cmp l hc a ha => by
    rw [flippingQsort_eq cmp l hc]
    exact insertionQsort_filter cmp l hc a ha l (fun _ h => h)

/-- The sort of the empty block is the empty block. -/
theorem qsort_nil (qsort : (term → term → Int) → List term → List term)
    (hq : QsortContract qsort) (cmp : term → term → Int) : qsort cmp [] = [] :=
  List.perm_nil.mp (hq.1 cmp [] ⟨fun _ h => by simp at h, fun _ h => by simp at h⟩)


/-! ## Arrays that need not be sorted -/

/-- The two loops run side by side on any array: when `t2` implies `t1`, the loop for `t1`
never ends to the right of the loop for `t2`. -/
theorem searchLoop_pair (terms : List term) (t1 t2 : term → Bool)
    (hn : (terms.length : Int) ≤ 1073741824)
    (himp : ∀ t, t2 t = true → t1 t = true) :
    ∀ (fuel : Nat) (left right : Int), 0 ≤ left → left ≤ right + 1 →
      right < terms.length → right - left + 1 ≤ fuel →
      ∃ lo hi : Int, searchLoop terms t1 fuel left right = some (lo, lo - 1) ∧
        searchLoop terms t2 fuel left right = some (hi, hi - 1) ∧
        left ≤ lo ∧ lo ≤ hi ∧ hi ≤ right + 1
  | 0, left, right, h0, h1, h2, h3 => by
    obtain ⟨lo, hlo, hlo1, hlo2⟩ := searchLoop_bounds terms t1 hn 0 left right h0 h1 h2 h3
    obtain ⟨hi, hhi, hhi1, hhi2⟩ := searchLoop_bounds terms t2 hn 0 left right h0 h1 h2 h3
    exact ⟨lo, hi, hlo, hhi, hlo1, by push_cast at h3; omega, hhi2⟩
  | fuel + 1, left, right, h0, h1, h2, h3 => by
    by_cases hlr : left ≤ right
    · obtain ⟨hm1, hm2⟩ := mid_bounds left right h0 hlr
      obtain ⟨t, ht, -⟩ := index_in_range terms (Int.tdiv (right + left) 2) (by omega) (by omega)
      simp only [searchLoop, hlr, if_true, fitsInt_sum _ hn left right h0 hlr h2, ht]
      by_cases h2t : t2 t = true
      · have h1t := himp t h2t
        obtain ⟨lo, hi, hlo, hhi, b1, b2, b3⟩ := searchLoop_pair terms t1 t2 hn himp fuel left
          (Int.tdiv (right + left) 2 - 1) h0 (by omega) (by omega) (by push_cast at h3; omega)
        exact ⟨lo, hi, by simp only [h1t, if_true]; exact hlo,
          by simp only [h2t, if_true]; exact hhi, b1, b2, by omega⟩
      · by_cases h1t : t1 t = true
        · obtain ⟨lo, hlo, hlo1, hlo2⟩ := searchLoop_bounds terms t1 hn fuel left
            (Int.tdiv (right + left) 2 - 1) h0 (by omega) (by omega) (by push_cast at h3; omega)
          obtain ⟨hi, hhi, hhi1, hhi2⟩ := searchLoop_bounds terms t2 hn fuel
            (Int.tdiv (right + left) 2 + 1) right (by omega) (by omega) h2
            (by push_cast at h3; omega)
          exact ⟨lo, hi, by simp only [h1t, if_true]; exact hlo,
            by simp only [h2t]; exact hhi, hlo1, by omega, hhi2⟩
        · obtain ⟨lo, hi, hlo, hhi, b1, b2, b3⟩ := searchLoop_pair terms t1 t2 hn himp fuel
            (Int.tdiv (right + left) 2 + 1) right (by omega) (by omega) h2
            (by push_cast at h3; omega)
          exact ⟨lo, hi, by simp only [h1t]; exact hlo,
            by simp only [h2t]; exact hhi, by omega, b2, b3⟩
    · refine ⟨left, left, ?_, ?_, le_refl _, le_refl _, h1⟩
      · simp only [searchLoop, hlr, if_false]
        congr 2; omega
      · simp only [searchLoop, hlr, if_false]
        congr 2; omega

theorem testHigh_imp_testLow (substr : CString) (len : Nat) (t : term)
    (h : testHigh substr len t = true) : testLow substr len t = true := by
  simp only [testHigh, testLow, decide_eq_true_eq] at h ⊢
  omega

/-- On any array of at most `2^30` entries the two searches succeed, `autocomplete` copies the
slice they delimit and returns it sorted by the library sort. -/
theorem autocomplete_any (qsort : (term → term → Int) → List term → List term)
    (terms : List term) (substr : CString) (hsize : (terms.length : Int) ≤ 1073741824) :
    ∃ lo hi : Nat, lo ≤ hi ∧ hi ≤ terms.length ∧
      lowest_match terms terms.length substr = some (lo : Int) ∧
      highest_match terms terms.length substr = some ((hi : Int) - 1) ∧
      copied terms terms.length substr = (terms.drop lo).take (hi - lo) ∧
      autocomplete qsort terms terms.length substr =
        some (qsort compare_weight ((terms.drop lo).take (hi - lo)), (hi : Int) - (lo : Int)) := by
  obtain ⟨lo, hi, hlo, hhi, b1, b2, b3⟩ := searchLoop_pair terms
    (testLow substr (size_t_of_int (int_of_size_t (strlen substr))))
    (testHigh substr (size_t_of_int (int_of_size_t (strlen substr)))) hsize
    (testHigh_imp_testLow substr _)
    (terms.length : Int).toNat 0 ((terms.length : Int) - 1) (le_refl _) (by omega) (by omega)
    (by simp)
  have e1 : lowest_match terms terms.length substr = some lo := by
    rw [lowest_match_start terms substr (by omega), hlo]; rfl
  have e2 : highest_match terms terms.length substr = some (hi - 1) := by
    rw [highest_match_start terms substr (by omega), hhi]; rfl
  have hlo' : ((lo.toNat : Nat) : Int) = lo := by omega
  have hhi' : ((hi.toNat : Nat) : Int) = hi := by omega
  refine ⟨lo.toNat, hi.toNat, by omega, by omega, by rw [hlo']; exact e1,
    by rw [hhi']; exact e2, ?_⟩
  suffices hboth : copied terms terms.length substr =
        (terms.drop lo.toNat).take (hi.toNat - lo.toNat) ∧
      autocomplete qsort terms terms.length substr =
        some (qsort compare_weight ((terms.drop lo.toNat).take (hi.toNat - lo.toNat)),
          ((hi.toNat : Nat) : Int) - ((lo.toNat : Nat) : Int)) from hboth
  have hn : (hi - 1 - lo + 1).toNat = hi.toNat - lo.toNat := by omega
  have hcopy := copy_terms_eq terms lo.toNat (hi.toNat - lo.toNat) (by omega)
  rw [hlo'] at hcopy
  have hneg : ¬ (hi - 1 - lo + 1 < 0) := by omega
  have hval : hi - 1 - lo + 1 = ((hi.toNat : Nat) : Int) - ((lo.toNat : Nat) : Int) := by omega
  refine ⟨?_, ?_⟩
  · simp only [copied, e1, e2, hneg, if_false, hn, hcopy]
  · simp only [autocomplete, e1, e2, hneg, if_false, hn, hcopy]
    rw [hval]

theorem ranked_not_nan : ∀ (l : List term), RankedDescending l → 2 ≤ l.length → NoNaN l
  | [], _, h => by simp at h
  | [_], _, h => by simp at h
  | x :: y :: rest, hr, _ => by
    obtain ⟨hxy, hrest⟩ := List.chain'_cons.mp hr
    obtain ⟨hx, hy⟩ := Double.ge_not_nan _ _ hxy
    intro t ht
    rcases List.mem_cons.mp ht with rfl | ht
    · exact hx
    · cases rest with
      | nil =>
        rcases List.mem_cons.mp ht with rfl | ht
        · exact hy
        · simp at ht
      | cons z rest => exact ranked_not_nan (y :: z :: rest) hrest (by simp) t ht

/-- Under the contract of the library sort, a list without NaN weights comes out of the sort by
`compare_weight` sorted descending by weight. -/
theorem qsort_ranked (qsort : (term → term → Int) → List term → List term)
    (hq : QsortContract qsort) (l : List term) (hnan : NoNaN l) :
    RankedDescending (qsort compare_weight l) := by
  have hp := hq.2 compare_weight l (compare_weight_consistent l hnan)
  have hmem : ∀ t ∈ qsort compare_weight l, t.weight.isNaN = false :=
    fun t ht => hnan t
      ((hq.1 compare_weight l (compare_weight_consistent l hnan)).mem_iff.mp ht)
  have hp2 : (qsort compare_weight l).Pairwise (fun a b => Double.ge a.weight b.weight = true) := by
    rw [List.pairwise_iff_getElem] at hp ⊢
    intro i j hi hj hij
    have := hp i j hi hj hij
    rw [compare_weight_le_iff, Double.not_gt_iff_ge _ _
      (hmem _ (List.getElem_mem _)) (hmem _ (List.getElem_mem _))] at this
    exact this
  exact hp2.chain'

theorem strcmpBytes_not_lex : ∀ (a b : List Nat), strcmpBytes a b ≤ 0 → (∀ x ∈ a, 0 < x) →
    ¬ List.Lex (fun x y : Nat => x < y) b a
  | [], _, _, _ => by
    intro hlt
    cases hlt
  | x :: a, [], h, ha => by
    have := ha x (by simp)
    simp [strcmpBytes] at h
    omega
  | x :: a, y :: b, h, ha => by
    have ih := strcmpBytes_not_lex a b
    intro hlt
    simp only [strcmpBytes] at h
    cases hlt with
    | rel hyx =>
      split_ifs at h with e
      · omega
      · omega
    | cons hrest =>
      simp only [if_true] at h
      exact ih h (fun v hv => ha v (by simp [hv])) hrest

/-- A non-positive `strcmp` means that the first text is at most the second one in the
lexicographic order of their byte sequences. -/
theorem strcmp_le_lex (a b : CString) (h : strcmp a b ≤ 0) : a.bytes ≤ b.bytes :=
  not_lt.mp (strcmpBytes_not_lex a.bytes b.bytes h a.pos)

/-! ## A store of more than `2^30` entries -/

theorem bigStore_length : bigStore.length = 1073741825 := List.length_replicate _ _

theorem bigStore_index (i : Int) (t : term) (h : index bigStore i = some t) :
    t = ⟨s_ant, .finite 1, by decide⟩ := by
  unfold index bigStore at h
  split_ifs at h
  rw [List.getElem?_replicate] at h
  split_ifs at h
  exact (Option.some.inj h).symm

theorem bigStore_mem (t : term) (h : t ∈ bigStore) : t = ⟨s_ant, .finite 1, by decide⟩ :=
  List.eq_of_mem_replicate h

theorem bigStore_sorted : SortedStore bigStore := by
  have hp : bigStore.Pairwise (fun a b => compare_terms_lex a b ≤ 0) := by
    rw [List.pairwise_iff_forall_sublist]
    intro a b hab
    have ha := bigStore_mem a (hab.subset (by simp))
    have hb := bigStore_mem b (hab.subset (by simp))
    subst ha hb
    decide
  exact hp.chain'

/-- On the store of `2^30 + 1` copies of `ant`, a loop whose test fails on `ant` overflows. -/
theorem bigStore_searchLoop (test : term → Bool) (htest : test ⟨s_ant, .finite 1, by decide⟩ = false) :
    searchLoop bigStore test (bigStore.length : Int).toNat 0 ((bigStore.length : Int) - 1) =
      none := by
  have hlen := bigStore_length
  exact searchLoop_overflow bigStore test
    (fun i t ht => by rw [bigStore_index i t ht]; exact htest)
    (bigStore.length : Int).toNat 0 ((bigStore.length : Int) - 1) (le_refl _)
    (by omega) (by omega) (by omega) (by omega)

/-- The search `lowest_match` overflows on `bigStore` for a prefix that `ant` compares below. -/
theorem bigStore_lowest (substr : CString)
    (h : strncmp s_ant substr (size_t_of_int (int_of_size_t (strlen substr))) < 0) :
    lowest_match bigStore bigStore.length substr = none := by
  have hlen := bigStore_length
  rw [lowest_match_start bigStore substr (by omega),
    bigStore_searchLoop _ (by simp only [testLow, decide_eq_false_iff_not]; omega)]
  rfl

/-- The search `highest_match` overflows on `bigStore` for a prefix that `ant` does not compare
above. -/
theorem bigStore_highest (substr : CString)
    (h : strncmp s_ant substr (size_t_of_int (int_of_size_t (strlen substr))) ≤ 0) :
    highest_match bigStore bigStore.length substr = none := by
  have hlen := bigStore_length
  rw [highest_match_start bigStore substr (by omega),
    bigStore_searchLoop _ (by simp only [testHigh, decide_eq_false_iff_not]; omega)]
  rfl

theorem autocomplete_of_highest_none (qsort : (term → term → Int) → List term → List term)
    (terms : List term) (nterms : Int) (substr : CString)
    (h : highest_match terms nterms substr = none) :
    autocomplete qsort terms nterms substr = none := by
  unfold autocomplete
  rw [h]
  cases lowest_match terms nterms substr <;> rfl

/-! ## A prefix of `2^32` bytes -/

theorem longText_strlen : strlen longText = 4294967296 := by
  show (97 :: 98 :: List.replicate 4294967294 97).length = 4294967296
  rw [List.length_cons, List.length_cons, List.length_replicate]

/-- The length of `longText` becomes 0 when it is stored in the `int` `len_substr`. -/
theorem longText_len_substr : int_of_size_t (strlen longText) = 0 := by
  rw [longText_strlen]
  decide

theorem longText_lowest (terms : List term) (nterms : Int) :
    lowest_match terms nterms longText =
      if fitsInt nterms ∧ fitsInt (nterms - 1) then
        lowest_match_loop terms longText 0 nterms.toNat 0 (nterms - 1)
      else none := by
  rw [lowest_match, longText_len_substr]

theorem longText_highest (terms : List term) (nterms : Int) :
    highest_match terms nterms longText =
      if fitsInt nterms ∧ fitsInt (nterms - 1) then
        highest_match_loop terms longText 0 nterms.toNat 0 (nterms - 1)
      else none := by
  rw [highest_match, longText_len_substr]

/-- On the store `a, ant` the searches for `longText` return the whole range 0..1. -/
theorem longText_storeA :
    lowest_match storeA storeA.length longText = some 0 ∧
      highest_match storeA storeA.length longText = some 1 := by
  rw [longText_lowest, longText_highest]
  decide

/-- The result of `autocomplete` once the two searches have returned. -/
theorem autocomplete_of_searches (qsort : (term → term → Int) → List term → List term)
    (terms : List term) (nterms : Int) (substr : CString) (low high : Int) (block : List term)
    (h1 : lowest_match terms nterms substr = some low)
    (h2 : highest_match terms nterms substr = some high)
    (h3 : 0 ≤ high - low + 1)
    (h4 : copy_terms terms low (high - low + 1).toNat = some block) :
    autocomplete qsort terms nterms substr = some (qsort compare_weight block, high - low + 1) ∧
      copied terms nterms substr = block := by
  have hneg : ¬ (high - low + 1 < 0) := by omega
  constructor
  · simp only [autocomplete, h1, h2, hneg, if_false, h4]
  · simp only [copied, h1, h2, hneg, if_false, h4]

theorem longText_storeA_autocomplete (qsort : (term → term → Int) → List term → List term) :
    autocomplete qsort storeA storeA.length longText = some (qsort compare_weight storeA, 2) ∧
      copied storeA storeA.length longText = storeA :=
  autocomplete_of_searches qsort storeA storeA.length longText 0 1 storeA
    longText_storeA.1 longText_storeA.2 (by decide) (by decide)

/-- No text of a `term` starts with `longText`, which is too long. -/
theorem longText_no_match (t : term) : ¬ startsWith t.term longText := by
  intro hst
  have h1 := List.IsPrefix.length_le hst
  have h2 := t.fits
  have h3 := longText_strlen
  simp only [strlen] at h2 h3
  omega


/-! ## The claims on sorted stores -/

/-- C1, as amended (range correctness): on a store sorted by `compare_terms_lex` that has at
most `2^30` entries, with a prefix of fewer than `2^32` bytes, both searches return, and an
index `i` of the store satisfies `lowest_match ≤ i ≤ highest_match` if and only if the entry at
`i` starts with the prefix. -/
theorem range_correctness (terms : List term) (substr : CString) (hsorted : SortedStore terms)
    (hsize : terms.length ≤ 1073741824) (hlen : strlen substr < 4294967296) :
    ∃ low high : Int, lowest_match terms terms.length substr = some low ∧
      highest_match terms terms.length substr = some high ∧
      ∀ (i : Nat) (t : term), terms[i]? = some t →
        ((low ≤ (i : Int) ∧ (i : Int) ≤ high) ↔ startsWith t.term substr) := by
  obtain ⟨lo, hi, hlo, hhi, -, -, -, -, hrange⟩ :=
    match_range hsorted substr (by exact_mod_cast hsize) hlen
  refine ⟨lo, (hi : Int) - 1, hlo, hhi, fun i t ht => ?_⟩
  rw [← hrange i t ht]
  omega

theorem range_correctness_witness :
    SortedStore store4 ∧
      ∃ low high : Int, lowest_match store4 store4.length s_ap = some low ∧
        highest_match store4 store4.length s_ap = some high ∧
        ∀ (i : Nat) (t : term), store4[i]? = some t →
          ((low ≤ (i : Int) ∧ (i : Int) ≤ high) ↔ startsWith t.term s_ap) :=
  ⟨by decide, range_correctness store4 s_ap (by decide) (by decide) (by decide)⟩

/-- C1, as stated, fails. On the sorted store of `2^30 + 1` copies of `ant` with the prefix
"car", the sum `right + left` of `lowest_match` overflows and the search does not return. On
the sorted store `a`, `ant` with the prefix `longText` of `2^32` bytes, whose length is 0 once
stored in an `int`, the searches return 0 and 1 although no entry starts with the prefix. -/
theorem range_correctness_fails_beyond_bounds :
    (SortedStore bigStore ∧ lowest_match bigStore bigStore.length s_car = none) ∧
      (SortedStore storeA ∧ lowest_match storeA storeA.length longText = some 0 ∧
        highest_match storeA storeA.length longText = some 1 ∧
        ∀ t ∈ storeA, ¬ startsWith t.term longText) :=
  ⟨⟨bigStore_sorted, bigStore_lowest s_car (by decide)⟩,
    by decide, longText_storeA.1, longText_storeA.2, fun t _ => longText_no_match t⟩

/-- C2, as amended (completeness): on a sorted store of at most `2^30` entries, with a prefix of
fewer than `2^32` bytes, when no entry that starts with the prefix has a NaN weight,
`autocomplete` returns, its answer is a permutation of the entries of the store whose text
starts with the prefix (same multiset: nothing omitted, duplicated or added), and `*n_answer`
is the number of those entries. -/
theorem completeness (qsort : (term → term → Int) → List term → List term)
    (hq : QsortContract qsort) (terms : List term) (substr : CString)
    (hsorted : SortedStore terms) (hsize : terms.length ≤ 1073741824)
    (hlen : strlen substr < 4294967296) (hnan : NoNaN (matching terms substr)) :
    ∃ (answer : List term) (n_answer : Int),
      autocomplete qsort terms terms.length substr = some (answer, n_answer) ∧
      answer.Perm (matching terms substr) ∧
      n_answer = ((matching terms substr).length : Int) :=
  ⟨_, _, autocomplete_sorted qsort hsorted substr (by exact_mod_cast hsize) hlen,
    hq.1 _ _ (compare_weight_consistent _ hnan), rfl⟩

theorem completeness_witness :
    QsortContract insertionQsort ∧ SortedStore store4 ∧
      matching store4 s_ap = [⟨s_ape, .finite 1, by decide⟩, ⟨s_apex, .finite 5, by decide⟩] ∧
      autocomplete insertionQsort store4 store4.length s_ap =
        some ([⟨s_apex, .finite 5, by decide⟩, ⟨s_ape, .finite 1, by decide⟩], 2) ∧
      ∃ (answer : List term) (n_answer : Int),
        autocomplete insertionQsort store4 store4.length s_ap = some (answer, n_answer) ∧
        answer.Perm (matching store4 s_ap) ∧
        n_answer = ((matching store4 s_ap).length : Int) :=
  ⟨insertionQsort_contract, by decide, by decide, by decide,
    completeness insertionQsort insertionQsort_contract store4 s_ap (by decide) (by decide)
      (by decide) (by decide)⟩

/-- C2, as stated, fails. On the sorted store of `2^30 + 1` copies of `ant` with the prefix
"car", `autocomplete` does not return: `right + left` overflows. On the sorted store `a`, `ant`
with the prefix `longText` of `2^32` bytes, it returns both entries although none starts with
the prefix. On the sorted store `ant`, `ap`, `ape` of weights 2.0, NaN, 1.0 with the prefix
"a", `compare_weight` is not a consistent comparator, C leaves `qsort` undefined, and with the
library sort `droppingQsort`, which meets the contract, the answer is empty although three
entries start with the prefix. -/
theorem completeness_fails_beyond_bounds :
    (SortedStore bigStore ∧ autocomplete insertionQsort bigStore bigStore.length s_car = none) ∧
      (SortedStore storeA ∧
        autocomplete insertionQsort storeA storeA.length longText =
          some ([⟨s_ant, .finite 2, by decide⟩, ⟨s_a, .finite 1, by decide⟩], 2) ∧
        matching storeA longText = []) ∧
      (QsortContract droppingQsort ∧ SortedStore storeMixed ∧
        ¬ Consistent compare_weight storeMixed ∧
        autocomplete droppingQsort storeMixed storeMixed.length s_a = some ([], 3) ∧
        matching storeMixed s_a = storeMixed) :=
  ⟨⟨bigStore_sorted,
      autocomplete_of_highest_none _ _ _ _ (bigStore_highest s_car (by decide))⟩,
    ⟨by decide, (longText_storeA_autocomplete insertionQsort).1.trans (by decide), by decide⟩,
    droppingQsort_contract, by decide, by decide, by decide, by decide⟩

/-- C3, as amended (rank order): for every store of at most `2^30` entries, sorted or not, and
every prefix, `autocomplete` returns; when none of the entries it copies has a NaN weight, its
answer is sorted descending by weight: `answer[i].weight >= answer[i+1].weight` for every
adjacent pair. -/
theorem rank_order (qsort : (term → term → Int) → List term → List term)
    (hq : QsortContract qsort) (terms : List term) (substr : CString)
    (hsize : terms.length ≤ 1073741824)
    (hnan : NoNaN (copied terms terms.length substr)) :
    ∃ (answer : List term) (n_answer : Int),
      autocomplete qsort terms terms.length substr = some (answer, n_answer) ∧
      RankedDescending answer := by
  obtain ⟨lo, hi, -, -, -, -, hcopied, hauto⟩ :=
    autocomplete_any qsort terms substr (by exact_mod_cast hsize)
  rw [hcopied] at hnan
  exact ⟨_, _, hauto, qsort_ranked qsort hq _ hnan⟩

theorem rank_order_witness :
    QsortContract insertionQsort ∧ ¬ SortedStore entries4 ∧
      copied entries4 entries4.length s_ap = entries4 ∧
      autocomplete insertionQsort entries4 entries4.length s_ap =
        some ([⟨s_apex, .finite 5, by decide⟩, ⟨s_ant, .finite 3, by decide⟩,
          ⟨s_bee, .finite 2, by decide⟩, ⟨s_ape, .finite 1, by decide⟩], 4) ∧
      ∃ (answer : List term) (n_answer : Int),
        autocomplete insertionQsort entries4 entries4.length s_ap = some (answer, n_answer) ∧
        RankedDescending answer :=
  ⟨insertionQsort_contract, by decide, by decide, by decide,
    rank_order insertionQsort insertionQsort_contract entries4 s_ap (by decide) (by decide)⟩

/-- C3, as stated, fails. On the sorted store `ant` (weight 1.0), `ape` (weight NaN) with the
prefix "a", `autocomplete` with insertion sort returns `ant`, `ape`, where `1.0 >= NaN` is
false; and whatever the library sort does within its contract, the answer is not sorted
descending by weight. On the store of `2^30 + 1` copies of `ant` with the prefix "car",
`autocomplete` does not return: `right + left` overflows. -/
theorem rank_order_fails_with_nan :
    (autocomplete insertionQsort storeNaN storeNaN.length s_a =
        some ([⟨s_ant, .finite 1, by decide⟩, ⟨s_ape, .nan, by decide⟩], 2) ∧
      Double.ge (.finite 1) .nan = false ∧
      ¬ ∃ qsort : (term → term → Int) → List term → List term, QsortContract qsort ∧
        ∃ (answer : List term) (n_answer : Int),
          autocomplete qsort storeNaN storeNaN.length s_a = some (answer, n_answer) ∧
          RankedDescending answer) ∧
      autocomplete insertionQsort bigStore bigStore.length s_car = none := by
  refine ⟨⟨by decide, by decide, ?_⟩,
    autocomplete_of_highest_none _ _ _ _ (bigStore_highest s_car (by decide))⟩
  rintro ⟨qsort, hq, answer, n_answer, hauto, hr⟩
  have hs : SortedStore storeNaN := by decide
  rw [autocomplete_sorted qsort hs s_a (by decide) (by decide)] at hauto
  have hm : matching storeNaN s_a = storeNaN := by decide
  rw [hm] at hauto
  have hperm := hq.1 compare_weight storeNaN (by decide)
  have hans : answer = qsort compare_weight storeNaN :=
    (congrArg Prod.fst (Option.some.inj hauto)).symm
  rw [← hans] at hperm
  have hlen : 2 ≤ answer.length := by rw [hperm.length_eq]; decide
  have hnn := ranked_not_nan answer hr hlen ⟨s_ape, .nan, by decide⟩
    (hperm.mem_iff.mpr (by decide))
  simp [Double.isNaN] at hnn

/-- The entries that `autocomplete` copies are taken from the store in store order. -/
theorem copied_sublist (terms : List term) (substr : CString)
    (hsize : (terms.length : Int) ≤ 1073741824) :
    (copied terms terms.length substr).Sublist terms := by
  obtain ⟨lo, hi, -, -, -, -, hcopied, -⟩ := autocomplete_any insertionQsort terms substr hsize
  rw [hcopied]
  exact (List.take_sublist _ _).trans (List.drop_sublist _ _)

/-- C4, as amended (tie-break): when the library sort is stable, for every store of at most
`2^30` entries and every prefix such that no entry that `autocomplete` copies has a NaN weight,
the answer lists the entries of any given weight in the order in which they were copied, which
is the order they have in the store. -/
theorem stable_tie_break (qsort : (term → term → Int) → List term → List term)
    (hq : QsortContract qsort) (hstable : QsortStable qsort) (terms : List term)
    (substr : CString) (hsize : terms.length ≤ 1073741824)
    (hnan : NoNaN (copied terms terms.length substr)) :
    ∃ (answer : List term) (n_answer : Int),
      autocomplete qsort terms terms.length substr = some (answer, n_answer) ∧
      ∀ w : Double,
        answer.filter (fun t => decide (t.weight = w)) =
          (copied terms terms.length substr).filter (fun t => decide (t.weight = w)) ∧
        (answer.filter (fun t => decide (t.weight = w))).Sublist terms := by
  obtain ⟨lo, hi, -, -, -, -, hcopied, hauto⟩ :=
    autocomplete_any qsort terms substr (by exact_mod_cast hsize)
  have hsub := copied_sublist terms substr (by exact_mod_cast hsize)
  generalize copied terms terms.length substr = block at hnan hcopied hsub
  subst hcopied
  refine ⟨_, _, hauto, fun w => ?_⟩
  have hcons := compare_weight_consistent _ hnan
  have hperm := hq.1 compare_weight _ hcons
  have hfilter : (qsort compare_weight ((terms.drop lo).take (hi - lo))).filter
      (fun t => decide (t.weight = w)) =
        ((terms.drop lo).take (hi - lo)).filter (fun t => decide (t.weight = w)) := by
    by_cases hex : ∃ a ∈ (terms.drop lo).take (hi - lo), a.weight = w
    · obtain ⟨a, ha, rfl⟩ := hex
      have hst := hstable compare_weight _ hcons a ha
      have hcongr : ∀ l : List term, NoNaN l →
          l.filter (fun t => decide (t.weight = a.weight)) =
            l.filter (fun b => decide (compare_weight a b = 0)) := by
        intro l hl
        apply List.filter_congr
        intro t ht
        have := compare_weight_eq_zero_iff a t (hnan a ha) (hl t ht)
        by_cases e : t.weight = a.weight
        · simp [e, this.mpr e.symm]
        · have e2 : ¬ compare_weight a t = 0 := fun h0 => e (this.mp h0).symm
          simp [e, e2]
      rw [hcongr _ (fun t ht => hnan t (hperm.mem_iff.mp ht)), hcongr _ hnan, hst]
    · have h1 : ((terms.drop lo).take (hi - lo)).filter (fun t => decide (t.weight = w)) = [] := by
        rw [List.filter_eq_nil_iff]
        intro t ht hw
        exact hex ⟨t, ht, by simpa using hw⟩
      have h2 : (qsort compare_weight ((terms.drop lo).take (hi - lo))).filter
          (fun t => decide (t.weight = w)) = [] := by
        rw [List.filter_eq_nil_iff]
        intro t ht hw
        exact hex ⟨t, hperm.mem_iff.mp ht, by simpa using hw⟩
      rw [h1, h2]
  exact ⟨hfilter, hfilter ▸ (List.filter_sublist _).trans hsub⟩

theorem stable_tie_break_witness :
    QsortContract insertionQsort ∧ QsortStable insertionQsort ∧
      copied storeTie storeTie.length s_a = storeTie ∧
      autocomplete insertionQsort storeTie storeTie.length s_a = some (storeTie, 2) ∧
      ∃ (answer : List term) (n_answer : Int),
        autocomplete insertionQsort storeTie storeTie.length s_a = some (answer, n_answer) ∧
        ∀ w : Double,
          answer.filter (fun t => decide (t.weight = w)) =
            (copied storeTie storeTie.length s_a).filter (fun t => decide (t.weight = w)) ∧
          (answer.filter (fun t => decide (t.weight = w))).Sublist storeTie :=
  ⟨insertionQsort_contract, insertionQsort_stable, by decide, by decide,
    stable_tie_break insertionQsort insertionQsort_contract insertionQsort_stable storeTie s_a
      (by decide) (by decide)⟩

/-- C4, as stated, fails. The contract of the library sort leaves the order of equal elements
open: with the sort `reversingQsort`, which meets the contract, the sorted store `ant`, `ape`
(both of weight 1.0) and the prefix "a", `autocomplete` returns `ape` before `ant`. With a NaN
among the copied weights the comparator is not consistent and C leaves `qsort` undefined: with
the sort `flippingQsort`, which meets the contract and is stable, the sorted store
`a, ant, ap, ape, apex, apple` of weights 1.0, NaN, 5.0, 5.0, 0.0, 0.0 and the prefix "a",
`autocomplete` returns `ape` (5.0) before `ap` (5.0). On the store of `2^30 + 1` copies of
`ant` with the prefix "car", `autocomplete` does not return: `right + left` overflows. -/
theorem tie_order_not_kept :
    (QsortContract reversingQsort ∧ SortedStore storeTie ∧ NoNaN storeTie ∧
      copied storeTie storeTie.length s_a =
        [⟨s_ant, .finite 1, by decide⟩, ⟨s_ape, .finite 1, by decide⟩] ∧
      autocomplete reversingQsort storeTie storeTie.length s_a =
        some ([⟨s_ape, .finite 1, by decide⟩, ⟨s_ant, .finite 1, by decide⟩], 2) ∧
      ¬ ([⟨s_ape, .finite 1, by decide⟩, ⟨s_ant, .finite 1, by decide⟩] : List term).Sublist
        storeTie) ∧
      (QsortContract flippingQsort ∧ QsortStable flippingQsort ∧ SortedStore storeTieNaN ∧
        copied storeTieNaN storeTieNaN.length s_a = storeTieNaN ∧
        autocomplete flippingQsort storeTieNaN storeTieNaN.length s_a =
          some ([⟨s_apple, .finite 0, by decide⟩, ⟨s_apex, .finite 0, by decide⟩,
            ⟨s_ape, .finite 5, by decide⟩, ⟨s_ap, .finite 5, by decide⟩,
            ⟨s_ant, .nan, by decide⟩, ⟨s_a, .finite 1, by decide⟩], 6) ∧
        ¬ ([⟨s_ape, .finite 5, by decide⟩, ⟨s_ap, .finite 5, by decide⟩] : List term).Sublist
          storeTieNaN) ∧
      (QsortContract insertionQsort ∧ QsortStable insertionQsort ∧
        autocomplete insertionQsort bigStore bigStore.length s_car = none) :=
  ⟨⟨reversingQsort_contract, by decide, by decide, by decide, by decide, by decide⟩,
    ⟨flippingQsort_contract, flippingQsort_stable, by decide, by decide, by decide, by decide⟩,
    insertionQsort_contract, insertionQsort_stable,
    autocomplete_of_highest_none _ _ _ _ (bigStore_highest s_car (by decide))⟩

/-- C5 (sortedness after build): for every input sequence, the store produced by the sort of
`read_in_terms` has every adjacent pair in order: `strcmp` of the two texts is not positive,
and the first text is at most the second in the lexicographic order of byte sequences. -/
theorem build_sorted (qsort : (term → term → Int) → List term → List term)
    (hq : QsortContract qsort) (entries : List term) :
    List.Chain' (fun a b => compare_terms_lex a b ≤ 0 ∧ a.term.bytes ≤ b.term.bytes)
      (read_in_terms qsort entries).1 := by
  have hp := hq.2 compare_terms_lex entries (compare_terms_lex_consistent entries)
  exact (hp.imp (fun {a b} h => ⟨h, strcmp_le_lex a.term b.term h⟩)).chain'

theorem build_sorted_witness :
    QsortContract insertionQsort ∧
      (read_in_terms insertionQsort entries4).1 = store4 ∧
      List.Chain' (fun a b => compare_terms_lex a b ≤ 0 ∧ a.term.bytes ≤ b.term.bytes)
        (read_in_terms insertionQsort entries4).1 :=
  ⟨insertionQsort_contract, by decide, build_sorted insertionQsort insertionQsort_contract entries4⟩

/-- C6, as amended (contract of `lowest_match`): on a sorted store of `n ≤ 2^30` entries, with a
prefix of fewer than `2^32` bytes, `lowest_match` returns an index `low` with `0 ≤ low ≤ n` such
that every index whose truncated comparison with the prefix is `≥ 0` is at least `low`, the
entry at `low` (when `low < n`) has a truncated comparison `≥ 0`, and `low = n` when no entry
has. -/
theorem lowest_match_contract (terms : List term) (substr : CString)
    (hsorted : SortedStore terms) (hsize : terms.length ≤ 1073741824)
    (hlen : strlen substr < 4294967296) :
    ∃ low : Int, lowest_match terms terms.length substr = some low ∧
      0 ≤ low ∧ low ≤ (terms.length : Int) ∧
      (∀ (i : Nat) (t : term), terms[i]? = some t →
        0 ≤ strncmp t.term substr (strlen substr) → low ≤ (i : Int)) ∧
      (low < (terms.length : Int) → ∃ t : term, terms[low.toNat]? = some t ∧
        0 ≤ strncmp t.term substr (strlen substr)) ∧
      ((∀ (i : Nat) (t : term), terms[i]? = some t →
        strncmp t.term substr (strlen substr) < 0) → low = (terms.length : Int)) := by
  obtain ⟨k, hk, hk2, hk3, hk4⟩ :=
    lowest_match_sorted hsorted substr (by exact_mod_cast hsize) hlen
  refine ⟨k, hk, by omega, by omega, ?_, ?_, ?_⟩
  · intro i t ht h0
    by_contra hc
    have := hk3 i t (by omega) ht
    omega
  · intro hlt
    have hlt2 : k < terms.length := by omega
    refine ⟨terms[k], ?_, hk4 k _ (le_refl _) (List.getElem?_eq_getElem hlt2)⟩
    simp only [Int.toNat_ofNat]
    exact List.getElem?_eq_getElem hlt2
  · intro hall
    by_contra hc
    have hlt2 : k < terms.length := by omega
    have h1 := hk4 k _ (le_refl _) (List.getElem?_eq_getElem hlt2)
    have h2 := hall k _ (List.getElem?_eq_getElem hlt2)
    omega

theorem lowest_match_contract_witness :
    SortedStore store4 ∧ lowest_match store4 store4.length s_ap = some 1 ∧
      ∃ low : Int, lowest_match store4 store4.length s_ap = some low ∧
        0 ≤ low ∧ low ≤ (store4.length : Int) ∧
        (∀ (i : Nat) (t : term), store4[i]? = some t →
          0 ≤ strncmp t.term s_ap (strlen s_ap) → low ≤ (i : Int)) ∧
        (low < (store4.length : Int) → ∃ t : term, store4[low.toNat]? = some t ∧
          0 ≤ strncmp t.term s_ap (strlen s_ap)) ∧
        ((∀ (i : Nat) (t : term), store4[i]? = some t →
          strncmp t.term s_ap (strlen s_ap) < 0) → low = (store4.length : Int)) :=
  ⟨by decide, by decide, lowest_match_contract store4 s_ap (by decide) (by decide) (by decide)⟩

/-- C6, as stated, fails. On the sorted store of `2^30 + 1` copies of `ant` with the prefix
"car", the sum `right + left` overflows and `lowest_match` does not return. On the sorted store
`a`, `ant` with the prefix `longText` of `2^32` bytes, whose length is 0 once stored in an
`int`, `lowest_match` returns 0 although the entry `a` compares below the prefix on its first
`strlen` bytes. -/
theorem lowest_match_fails_beyond_bounds :
    (SortedStore bigStore ∧ lowest_match bigStore bigStore.length s_car = none) ∧
      (SortedStore storeA ∧ lowest_match storeA storeA.length longText = some 0 ∧
        storeA[0]? = some ⟨s_a, .finite 1, by decide⟩ ∧
        strncmp s_a longText (strlen longText) < 0) :=
  ⟨⟨bigStore_sorted, bigStore_lowest s_car (by decide)⟩,
    by decide, longText_storeA.1, by decide, by rw [longText_strlen]; decide⟩

/-- C7, as amended (contract of `highest_match`, a match exists): on a sorted store of at most
`2^30` entries where at least one entry starts with the prefix, `highest_match` returns the
largest index whose entry starts with the prefix. A prefix that an entry starts with has fewer
than 200 bytes, so its length is not changed by the conversion to `int`. -/
theorem highest_match_contract (terms : List term) (substr : CString)
    (hsorted : SortedStore terms) (hsize : terms.length ≤ 1073741824)
    (hex : ∃ t ∈ terms, startsWith t.term substr) :
    ∃ j : Nat, highest_match terms terms.length substr = some (j : Int) ∧
      (∃ t : term, terms[j]? = some t ∧ startsWith t.term substr) ∧
      ∀ (i : Nat) (t : term), terms[i]? = some t → startsWith t.term substr → i ≤ j := by
  obtain ⟨lo, hi, -, hhi, hle, hlen, -, -, hrange⟩ :=
    match_range hsorted substr (by exact_mod_cast hsize) (strlen_of_match terms substr hex)
  obtain ⟨t, ht, hst⟩ := hex
  obtain ⟨i, hi2⟩ := List.mem_iff_getElem?.mp ht
  have hin := (hrange i t hi2).mpr hst
  have hlt : hi - 1 < terms.length := by omega
  refine ⟨hi - 1, ?_, ⟨terms[hi - 1], List.getElem?_eq_getElem hlt, ?_⟩, ?_⟩
  · rw [hhi]; congr 1; omega
  · exact (hrange (hi - 1) _ (List.getElem?_eq_getElem hlt)).mp (by omega)
  · intro i' t' ht' hst'
    have := (hrange i' t' ht').mpr hst'
    omega

theorem highest_match_contract_witness :
    SortedStore store4 ∧ (∃ t ∈ store4, startsWith t.term s_ap) ∧
      highest_match store4 store4.length s_ap = some 2 ∧
      ∃ j : Nat, highest_match store4 store4.length s_ap = some (j : Int) ∧
        (∃ t : term, store4[j]? = some t ∧ startsWith t.term s_ap) ∧
        ∀ (i : Nat) (t : term), store4[i]? = some t → startsWith t.term s_ap → i ≤ j :=
  ⟨by decide, by decide, by decide,
    highest_match_contract store4 s_ap (by decide) (by decide) (by decide)⟩

/-- C7, as stated, fails. On the sorted store of `2^30 + 1` copies of `ant` with the prefix
"ant", every entry starts with the prefix, `highest_match` moves `left` up to `right = 2^30`,
the sum `right + left` overflows and the search does not return. -/
theorem highest_match_fails_on_large_store :
    SortedStore bigStore ∧ (∃ t ∈ bigStore, startsWith t.term s_ant) ∧
      highest_match bigStore bigStore.length s_ant = none :=
  ⟨bigStore_sorted,
    ⟨⟨s_ant, .finite 1, by decide⟩, List.mem_replicate.mpr ⟨by decide, rfl⟩, by decide⟩,
    bigStore_highest s_ant (by decide)⟩

/-- C8, as amended (`highest_match`, no match): on a sorted store of at most `2^30` entries,
with a prefix of fewer than `2^32` bytes that no entry starts with, `highest_match` returns
`lowest_match - 1`, the index of the last entry whose truncated comparison with the prefix is
negative; the range between the two is empty. -/
theorem highest_match_no_match (terms : List term) (substr : CString)
    (hsorted : SortedStore terms) (hsize : terms.length ≤ 1073741824)
    (hlen : strlen substr < 4294967296) (hno : ∀ t ∈ terms, ¬ startsWith t.term substr) :
    ∃ low : Int, lowest_match terms terms.length substr = some low ∧
      highest_match terms terms.length substr = some (low - 1) ∧
      ∀ (i : Nat) (t : term), terms[i]? = some t →
        ((i : Int) ≤ low - 1 ↔ strncmp t.term substr (strlen substr) < 0) := by
  obtain ⟨lo, hi, hlo, hhi, hle, hlen, hbelow, habove, hrange⟩ :=
    match_range hsorted substr (by exact_mod_cast hsize) hlen
  have heq : lo = hi := by
    by_contra hne
    have hlt : lo < terms.length := by omega
    have hst := (hrange lo terms[lo] (List.getElem?_eq_getElem hlt)).mp (by omega)
    exact hno _ (List.getElem_mem _) hst
  subst heq
  refine ⟨lo, hlo, hhi, fun i t ht => ?_⟩
  constructor
  · intro hi2
    exact hbelow i t (by omega) ht
  · intro hneg
    by_contra hc
    have := habove i t (by omega) ht
    omega

theorem highest_match_no_match_witness :
    SortedStore store2 ∧ (∀ t ∈ store2, ¬ startsWith t.term s_car) ∧
      ∃ low : Int, lowest_match store2 store2.length s_car = some low ∧
        highest_match store2 store2.length s_car = some (low - 1) ∧
        ∀ (i : Nat) (t : term), store2[i]? = some t →
          ((i : Int) ≤ low - 1 ↔ strncmp t.term s_car (strlen s_car) < 0) :=
  ⟨by decide, by decide,
    highest_match_no_match store2 s_car (by decide) (by decide) (by decide) (by decide)⟩

/-- C8, as stated, fails. On the sorted store `apple`, `banana` no entry starts with "car", and
`highest_match` returns 1, not -1. On the sorted store of `2^30 + 1` copies of `ant` with the
prefix "car", the sum `right + left` overflows and `highest_match` does not return. On the
sorted store `a`, `ant` with the prefix `longText` of `2^32` bytes, which no entry starts with,
`lowest_match` returns 0 and `highest_match` returns 1. -/
theorem highest_match_not_minus_one :
    (SortedStore store2 ∧ (∀ t ∈ store2, ¬ startsWith t.term s_car) ∧
      highest_match store2 store2.length s_car = some 1 ∧
      highest_match store2 store2.length s_car ≠ some (-1)) ∧
      (SortedStore bigStore ∧ (∀ t ∈ bigStore, ¬ startsWith t.term s_car) ∧
        highest_match bigStore bigStore.length s_car = none) ∧
      (SortedStore storeA ∧ (∀ t ∈ storeA, ¬ startsWith t.term longText) ∧
        lowest_match storeA storeA.length longText = some 0 ∧
        highest_match storeA storeA.length longText = some 1) :=
  ⟨by decide,
    ⟨bigStore_sorted, fun t ht => by rw [bigStore_mem t ht]; decide,
      bigStore_highest s_car (by decide)⟩,
    by decide, fun t _ => longText_no_match t, longText_storeA.1, longText_storeA.2⟩

/-- C9, as amended (no-match query): on a sorted store of at most `2^30` entries, with a prefix
of fewer than `2^32` bytes that no entry starts with, `autocomplete` does not fail and returns
the empty sequence, with `*n_answer = 0`. -/
theorem no_match_query (qsort : (term → term → Int) → List term → List term)
    (hq : QsortContract qsort) (terms : List term) (substr : CString)
    (hsorted : SortedStore terms) (hsize : terms.length ≤ 1073741824)
    (hlen : strlen substr < 4294967296) (hno : ∀ t ∈ terms, ¬ startsWith t.term substr) :
    autocomplete qsort terms terms.length substr = some ([], 0) := by
  have hm : matching terms substr = [] := by
    unfold matching
    rw [List.filter_eq_nil_iff]
    intro t ht hst
    exact hno t ht (by simpa using hst)
  rw [autocomplete_sorted qsort hsorted substr (by exact_mod_cast hsize) hlen, hm,
    qsort_nil qsort hq]
  rfl

theorem no_match_query_witness :
    QsortContract insertionQsort ∧ SortedStore store2 ∧
      (∀ t ∈ store2, ¬ startsWith t.term s_car) ∧
      autocomplete insertionQsort store2 store2.length s_car = some ([], 0) :=
  ⟨insertionQsort_contract, by decide, by decide,
    no_match_query insertionQsort insertionQsort_contract store2 s_car (by decide) (by decide)
      (by decide) (by decide)⟩

/-- C9, as stated, fails. On the sorted store of `2^30 + 1` copies of `ant` with the prefix
"car", which no entry starts with, `autocomplete` does not return: `right + left` overflows. On
the sorted store `a`, `ant` with the prefix `longText` of `2^32` bytes, which no entry starts
with, `autocomplete` returns both entries. -/
theorem no_match_query_fails_beyond_bounds :
    (SortedStore bigStore ∧ (∀ t ∈ bigStore, ¬ startsWith t.term s_car) ∧
      autocomplete insertionQsort bigStore bigStore.length s_car = none) ∧
      (SortedStore storeA ∧ (∀ t ∈ storeA, ¬ startsWith t.term longText) ∧
        autocomplete insertionQsort storeA storeA.length longText =
          some ([⟨s_ant, .finite 2, by decide⟩, ⟨s_a, .finite 1, by decide⟩], 2)) :=
  ⟨⟨bigStore_sorted, fun t ht => by rw [bigStore_mem t ht]; decide,
      autocomplete_of_highest_none _ _ _ _ (bigStore_highest s_car (by decide))⟩,
    by decide, fun t _ => longText_no_match t,
    (longText_storeA_autocomplete insertionQsort).1.trans (by decide)⟩

/-- With a prefix of length 0 the searches span the whole array, on any array of at most `2^30`
entries. -/
theorem empty_prefix_spec (qsort : (term → term → Int) → List term → List term)
    (hq : QsortContract qsort) (terms : List term) (substr : CString)
    (hsize : terms.length ≤ 1073741824) (hp : strlen substr = 0) :
    lowest_match terms terms.length substr = some 0 ∧
      highest_match terms terms.length substr = some ((terms.length : Int) - 1) ∧
      ∃ answer : List term,
        autocomplete qsort terms terms.length substr = some (answer, (terms.length : Int)) ∧
        answer = qsort compare_weight terms ∧
        (NoNaN terms → answer.Perm terms ∧ RankedDescending answer) := by
  have hsz : (terms.length : Int) ≤ 1073741824 := by exact_mod_cast hsize
  have hconv : size_t_of_int (int_of_size_t (strlen substr)) = 0 := by
    rw [hp]; decide
  have hlow : ∀ t, testLow substr 0 t = true := by
    intro t; simp [testLow, strncmp, strncmpBytes]
  have hhigh : ∀ t, testHigh substr 0 t = false := by
    intro t; simp [testHigh, strncmp, strncmpBytes]
  obtain ⟨k1, hk1, hk1len, hk1lo, -⟩ := searchLoop_whole terms (testLow substr 0) hsz
    (fun _ _ _ u _ _ _ _ => hlow u)
  obtain ⟨k2, hk2, hk2len, -, hk2hi⟩ := searchLoop_whole terms (testHigh substr 0) hsz
    (fun _ _ t _ _ _ _ h => by rw [hhigh t] at h; cases h)
  have e1 : k1 = 0 := by
    by_contra hne
    have hlt : 0 < terms.length := by omega
    have := hk1lo 0 terms[0] (by omega) (List.getElem?_eq_getElem hlt)
    rw [hlow] at this; cases this
  have e2 : k2 = terms.length := by
    by_contra hne
    have hlt : k2 < terms.length := by omega
    have := hk2hi k2 terms[k2] (le_refl _) (List.getElem?_eq_getElem hlt)
    rw [hhigh] at this; cases this
  subst e1
  have l1 : lowest_match terms terms.length substr = some 0 := by
    rw [lowest_match_start terms substr (by omega), hconv, hk1]; rfl
  have l2 : highest_match terms terms.length substr = some ((terms.length : Int) - 1) := by
    rw [highest_match_start terms substr (by omega), hconv, hk2, e2]; rfl
  obtain ⟨lo, hi, -, -, hlo, hhi, -, hauto⟩ := autocomplete_any qsort terms substr hsz
  rw [l1] at hlo
  rw [l2] at hhi
  have hlo0 : lo = 0 := by
    have := Option.some.inj hlo; omega
  have hhin : hi = terms.length := by
    have := Option.some.inj hhi; omega
  subst hlo0
  subst hhin
  simp only [List.drop_zero, Nat.sub_zero, List.take_length, Nat.cast_zero, sub_zero] at hauto
  exact ⟨l1, l2, _, hauto, rfl, fun hnan =>
    ⟨hq.1 _ _ (compare_weight_consistent _ hnan), qsort_ranked qsort hq terms hnan⟩⟩

/-- C10, as amended (empty prefix): for every store of `n ≤ 2^30` entries, sorted or not, with
the empty prefix `lowest_match` returns 0, `highest_match` returns `n - 1`, and `autocomplete`
returns `n` entries; when no weight of the store is a NaN they are a permutation of the whole
store, sorted descending by weight. -/
theorem empty_prefix_returns_all (qsort : (term → term → Int) → List term → List term)
    (hq : QsortContract qsort) (terms : List term) (substr : CString)
    (hsize : terms.length ≤ 1073741824) (hp : strlen substr = 0) :
    lowest_match terms terms.length substr = some 0 ∧
      highest_match terms terms.length substr = some ((terms.length : Int) - 1) ∧
      ∃ answer : List term,
        autocomplete qsort terms terms.length substr = some (answer, (terms.length : Int)) ∧
        (NoNaN terms → answer.Perm terms ∧ RankedDescending answer) := by
  obtain ⟨h1, h2, answer, h3, -, h4⟩ := empty_prefix_spec qsort hq terms substr hsize hp
  exact ⟨h1, h2, answer, h3, h4⟩

theorem empty_prefix_returns_all_witness :
    QsortContract insertionQsort ∧ strlen s_empty = 0 ∧ NoNaN entries4 ∧
      lowest_match entries4 entries4.length s_empty = some 0 ∧
      highest_match entries4 entries4.length s_empty = some ((entries4.length : Int) - 1) ∧
      ∃ answer : List term,
        autocomplete insertionQsort entries4 entries4.length s_empty =
          some (answer, (entries4.length : Int)) ∧
        (NoNaN entries4 → answer.Perm entries4 ∧ RankedDescending answer) :=
  ⟨insertionQsort_contract, by decide, by decide,
    empty_prefix_returns_all insertionQsort insertionQsort_contract entries4 s_empty
      (by decide) (by decide)⟩

/-- C10, as stated, fails. On the store `ant` (weight NaN), `bee` (weight 2.0) with the empty
prefix, `autocomplete` with insertion sort returns `ant`, `bee`, where `NaN >= 2.0` is false;
and whatever the library sort does within its contract, the answer is not sorted descending by
weight. On the store of `2^30 + 1` copies of `ant` with the empty prefix, `highest_match` moves
`left` up to `right = 2^30`, the sum `right + left` overflows, and neither `highest_match` nor
`autocomplete` returns. -/
theorem empty_prefix_not_ranked_with_nan :
    (autocomplete insertionQsort storeNaNFirst storeNaNFirst.length s_empty =
        some ([⟨s_ant, .nan, by decide⟩, ⟨s_bee, .finite 2, by decide⟩], 2) ∧
      Double.ge .nan (.finite 2) = false ∧
      ¬ ∃ qsort : (term → term → Int) → List term → List term, QsortContract qsort ∧
        ∃ answer : List term,
          autocomplete qsort storeNaNFirst storeNaNFirst.length s_empty =
            some (answer, (storeNaNFirst.length : Int)) ∧
          answer.Perm storeNaNFirst ∧ RankedDescending answer) ∧
      (highest_match bigStore bigStore.length s_empty = none ∧
        autocomplete insertionQsort bigStore bigStore.length s_empty = none) := by
  refine ⟨⟨by decide, by decide, ?_⟩, bigStore_highest s_empty (by decide),
    autocomplete_of_highest_none _ _ _ _ (bigStore_highest s_empty (by decide))⟩
  rintro ⟨qsort, hq, answer, hauto, hperm, hr⟩
  have hlen : 2 ≤ answer.length := by rw [hperm.length_eq]; decide
  have hnn := ranked_not_nan answer hr hlen ⟨s_ant, .nan, by decide⟩
    (hperm.mem_iff.mpr (by decide))
  simp [Double.isNaN] at hnn


/-! ## The empty store -/

/-- C11 (empty store): with `nterms = 0`, for every prefix, `lowest_match` returns 0,
`highest_match` returns -1 and `autocomplete` returns no entry, with `*n_answer = 0`. -/
theorem empty_store (qsort : (term → term → Int) → List term → List term)
    (hq : QsortContract qsort) (terms : List term) (substr : CString) :
    lowest_match terms 0 substr = some 0 ∧ highest_match terms 0 substr = some (-1) ∧
      autocomplete qsort terms 0 substr = some ([], 0) := by
  have hfit : fitsInt 0 ∧ fitsInt (0 - 1) := by decide
  have h1 : lowest_match terms 0 substr = some 0 := by
    rw [lowest_match, if_pos hfit]
    simp [lowest_match_loop]
  have h2 : highest_match terms 0 substr = some (-1) := by
    rw [highest_match, if_pos hfit]
    simp [highest_match_loop]
  refine ⟨h1, h2, ?_⟩
  have hnil : qsort compare_weight [] = [] := qsort_nil qsort hq compare_weight
  simp [autocomplete, h1, h2, copy_terms, hnil]

theorem empty_store_witness :
    QsortContract insertionQsort ∧
      lowest_match [] 0 s_ap = some 0 ∧ highest_match [] 0 s_ap = some (-1) ∧
      autocomplete insertionQsort [] 0 s_ap = some ([], 0) :=
  ⟨insertionQsort_contract, empty_store insertionQsort insertionQsort_contract [] s_ap⟩

/-! ## The store in memory -/

theorem Heap.read_write (h : Heap) (a : Nat) (t : term) (b : Nat) :
    (h.write a t).read b = if b = a then some t else h.read b := by
  unfold Heap.read Heap.write
  rw [List.getD_eq_getElem?_getD, List.getD_eq_getElem?_getD, List.getElem?_set]
  by_cases hba : b = a
  · subst hba
    have hlt : b < (h ++ List.replicate (b + 1 - List.length h) none).length := by
      rw [List.length_append, List.length_replicate]; omega
    simp only [if_true, hlt, Option.getD_some]
  · have hab : ¬ a = b := fun e => hba e.symm
    simp only [hab, hba, if_false]
    by_cases hb : b < List.length h
    · rw [List.getElem?_append_left hb]
    · rw [List.getElem?_append_right (by omega), List.getElem?_replicate]
      have : h[b]? = none := List.getElem?_eq_none (by omega)
      rw [this]
      split_ifs <;> rfl

/-- The cells of a loaded array. -/
theorem load_iff (h : Heap) (p : Nat) : ∀ (n : Nat) (l : List term),
    load h p n = some l ↔ l.length = n ∧ ∀ i < n, h.read (p + i) = l[i]?
  | 0, l => by
    simp only [load, Option.some.injEq]
    constructor
    · intro e; subst e; exact ⟨rfl, fun i hi => absurd hi (Nat.not_lt_zero i)⟩
    · intro ⟨e, _⟩; exact (List.length_eq_zero.mp e).symm
  | n + 1, l => by
    have ih := load_iff h p n
    constructor
    · intro e
      unfold load at e
      cases hl : load h p n with
      | none => rw [hl] at e; cases e
      | some l0 =>
        cases ht : h.read (p + n) with
        | none => rw [hl, ht] at e; cases e
        | some t =>
          rw [hl, ht] at e
          have e2 : l = l0 ++ [t] := (Option.some.inj e).symm
          obtain ⟨h1, h2⟩ := (ih l0).mp hl
          subst e2
          refine ⟨by simp [h1], fun i hi => ?_⟩
          by_cases hin : i < n
          · rw [h2 i hin, List.getElem?_append_left (by omega)]
          · have : i = n := by omega
            subst this
            rw [ht, List.getElem?_append_right (by omega)]
            simp [h1]
    · intro ⟨h1, h2⟩
      have hne : l ≠ [] := by
        intro e; subst e; simp at h1
      obtain ⟨l0, t, rfl⟩ : ∃ l0 t, l = l0 ++ [t] :=
        ⟨l.dropLast, l.getLast hne, (List.dropLast_append_getLast hne).symm⟩
      have hl0 : l0.length = n := by simpa using h1
      have hl : load h p n = some l0 := (ih l0).mpr ⟨hl0, fun i hi => by
        rw [h2 i (by omega), List.getElem?_append_left (by omega)]⟩
      have ht : h.read (p + n) = some t := by
        rw [h2 n (by omega), List.getElem?_append_right (by omega)]
        simp [hl0]
      unfold load
      rw [hl, ht]

/-- Two memories that agree on the cells of an array load the same array. -/
theorem load_congr (h1 h2 : Heap) (p n : Nat)
    (hag : ∀ i < n, h1.read (p + i) = h2.read (p + i)) : load h1 p n = load h2 p n := by
  induction n with
  | zero => rfl
  | succ n ih =>
    unfold load
    rw [ih (fun i hi => hag i (by omega)), hag n (by omega)]

/-- An array stays loaded in a memory that keeps every stored object. -/
theorem load_keep (h1 h2 : Heap) (p n : Nat) (l : List term) (hl : load h1 p n = some l)
    (hkeep : ∀ (a : Nat) (t : term), h1.read a = some t → h2.read a = some t) :
    load h2 p n = some l := by
  obtain ⟨e1, e2⟩ := (load_iff h1 p n l).mp hl
  refine (load_iff h2 p n l).mpr ⟨e1, fun i hi => ?_⟩
  have hlt : i < l.length := by omega
  have := e2 i hi
  rw [List.getElem?_eq_getElem hlt] at this ⊢
  exact hkeep _ _ this

theorem read_writeBlock : ∀ (l : List term) (h : Heap) (p a : Nat),
    (writeBlock h p l).read a =
      if p ≤ a ∧ a < p + l.length then l[a - p]? else h.read a
  | [], h, p, a => by
    simp only [writeBlock, List.length_nil, Nat.add_zero]
    have : ¬ (p ≤ a ∧ a < p) := by omega
    rw [if_neg this]
  | t :: l, h, p, a => by
    simp only [writeBlock, List.length_cons]
    rw [read_writeBlock l (h.write p t) (p + 1) a, Heap.read_write]
    by_cases h1 : a = p
    · subst h1
      have n1 : ¬ (a + 1 ≤ a ∧ a < a + 1 + l.length) := by omega
      have n2 : a ≤ a ∧ a < a + (l.length + 1) := by omega
      rw [if_neg n1, if_pos rfl, if_pos n2, Nat.sub_self, List.getElem?_cons_zero]
    · by_cases h2 : p + 1 ≤ a ∧ a < p + 1 + l.length
      · have n2 : p ≤ a ∧ a < p + (l.length + 1) := by omega
        rw [if_pos h2, if_pos n2]
        have : a - p = (a - (p + 1)) + 1 := by omega
        rw [this, List.getElem?_cons_succ]
      · have n2 : ¬ (p ≤ a ∧ a < p + (l.length + 1)) := by omega
        rw [if_neg h2, if_neg n2, if_neg h1]

theorem load_writeBlock (h : Heap) (p : Nat) (l : List term) :
    load (writeBlock h p l) p l.length = some l := by
  refine (load_iff _ p _ l).mpr ⟨rfl, fun i hi => ?_⟩
  rw [read_writeBlock, if_pos (by omega)]
  congr 1
  omega

/-- A library sort in memory that rearranges its array as a conforming function does meets the
contract in memory. -/
theorem blockQsort_contract (qsort : (term → term → Int) → List term → List term)
    (hq : QsortContract qsort) : QsortMemContract (blockQsort qsort) := by
  intro cmp h base n l hl hc
  have hlen : (qsort cmp l).length = n := by
    rw [(hq.1 cmp l hc).length_eq]
    exact ((load_iff h base n l).mp hl).1
  unfold blockQsort
  rw [hl]
  refine ⟨⟨qsort cmp l, ?_, hq.1 cmp l hc, hq.2 cmp l hc⟩, fun a ha => ?_⟩
  · rw [← hlen]; exact load_writeBlock h base _
  · rw [read_writeBlock, if_neg (by omega)]

theorem blockQsort_deterministic (qsort : (term → term → Int) → List term → List term)
    (hq : QsortContract qsort) : QsortMemDeterministic (blockQsort qsort) := by
  intro cmp h1 h2 base1 base2 n l hl1 hl2 hc
  have hlen : (qsort cmp l).length = n := by
    rw [(hq.1 cmp l hc).length_eq]
    exact ((load_iff h1 base1 n l).mp hl1).1
  unfold blockQsort
  rw [hl1, hl2]
  simp only []
  rw [← hlen, load_writeBlock, load_writeBlock]

theorem addressQsort_contract : QsortMemContract addressQsort := by
  intro cmp h base n l hl hc
  unfold addressQsort
  split_ifs
  · exact blockQsort_contract reversingQsort reversingQsort_contract cmp h base n l hl hc
  · exact blockQsort_contract insertionQsort insertionQsort_contract cmp h base n l hl hc

theorem wildQsort_contract : QsortMemContract wildQsort := by
  intro cmp h base n l hl hc
  have := blockQsort_contract insertionQsort insertionQsort_contract cmp h base n l hl hc
  unfold blockQsort at this
  unfold wildQsort
  rw [hl] at this ⊢
  simp only [hc, if_true]
  exact this

theorem wildQsort_deterministic : QsortMemDeterministic wildQsort := by
  intro cmp h1 h2 base1 base2 n l hl1 hl2 hc
  have := blockQsort_deterministic insertionQsort insertionQsort_contract cmp h1 h2 base1 base2
    n l hl1 hl2 hc
  unfold blockQsort at this
  unfold wildQsort
  rw [hl1, hl2] at this ⊢
  simp only [hc, if_true]
  exact this

theorem bumpMalloc_contract : MallocContract bumpMalloc := by
  intro h n i _
  unfold Heap.read bumpMalloc
  rw [List.getD_eq_getElem?_getD, List.getElem?_eq_none (by omega)]
  rfl

theorem load_map_some (l : List term) : load (l.map some) 0 l.length = some l := by
  refine (load_iff _ 0 _ l).mpr ⟨rfl, fun i hi => ?_⟩
  unfold Heap.read
  rw [List.getD_eq_getElem?_getD, Nat.zero_add, List.getElem?_map,
    List.getElem?_eq_getElem hi]
  rfl

/-- The copy loop, run on a block that overlaps no stored object, fills the block with the
entries `terms[low]`, ..., and leaves every other cell as it was. -/
theorem copy_loop_spec (h : Heap) (p : Nat) (store : List term) (lo a n : Nat)
    (hst : load h p store.length = some store) (hle : lo + n ≤ store.length)
    (hfresh : ∀ i < n, h.read (a + i) = none) :
    ∀ k ≤ n, ∃ hk : Heap, copy_loop p (lo : Int) a k h = some hk ∧
      (∀ b, b < a ∨ a + k ≤ b → hk.read b = h.read b) ∧
      load hk a k = some ((store.drop lo).take k)
  | 0, _ => ⟨h, rfl, fun _ _ => rfl, by simp [load]⟩
  | k + 1, hk1 => by
    obtain ⟨hk, e1, e2, e3⟩ := copy_loop_spec h p store lo a n hst hle hfresh k (by omega)
    obtain ⟨-, hcells⟩ := (load_iff h p _ store).mp hst
    have hlt : k + lo < store.length := by omega
    have h0 : (0 : Int) ≤ (k : Int) + (lo : Int) := by omega
    have hnat : ((k : Int) + (lo : Int)).toNat = k + lo := by omega
    have hsrc : h.read (p + (k + lo)) = some store[k + lo] := by
      rw [hcells (k + lo) hlt, List.getElem?_eq_getElem hlt]
    have hout : p + (k + lo) < a ∨ a + k ≤ p + (k + lo) := by
      by_contra hc
      have hf := hfresh (p + (k + lo) - a) (by omega)
      have : a + (p + (k + lo) - a) = p + (k + lo) := by omega
      rw [this, hsrc] at hf
      cases hf
    have hread : hk.read (p + (k + lo)) = some store[k + lo] := by
      rw [e2 _ hout, hsrc]
    refine ⟨hk.write (a + k) store[k + lo], ?_, ?_, ?_⟩
    · unfold copy_loop
      rw [e1]
      simp only [h0, if_true, hnat, hread]
    · intro b hb
      rw [Heap.read_write, if_neg (by omega)]
      exact e2 b (by omega)
    · unfold load
      have hsame : load (hk.write (a + k) store[k + lo]) a k = load hk a k :=
        load_congr _ _ a k (fun i hi => by rw [Heap.read_write, if_neg (by omega)])
      rw [hsame, e3, Heap.read_write, if_pos rfl]
      simp only []
      rw [List.take_succ, List.getElem?_drop]
      have : lo + k = k + lo := by omega
      rw [this, List.getElem?_eq_getElem hlt]
      rfl

/-- A call of `autocomplete` in memory on a store of at most `2^30` entries none of whose
copied entries has a NaN weight: the library sort is called on a block that holds the copied
entries, and every object stored before the call is kept. -/
theorem autocomplete_mem_spec (malloc : Heap → Nat → Nat)
    (qsort_mem : (term → term → Int) → Heap → Nat → Nat → Heap)
    (hmalloc : MallocContract malloc) (hmem : QsortMemContract qsort_mem)
    (h : Heap) (p : Nat) (terms : List term) (substr : CString)
    (hstore : load h p terms.length = some terms)
    (hsize : (terms.length : Int) ≤ 1073741824)
    (hnan : NoNaN (copied terms terms.length substr)) :
    ∃ (hc : Heap) (a n : Nat),
      autocomplete_mem malloc qsort_mem h p terms.length substr =
        some (qsort_mem compare_weight hc a n, a, (n : Int)) ∧
      load hc a n = some (copied terms terms.length substr) ∧
      Consistent compare_weight (copied terms terms.length substr) ∧
      (∀ (b : Nat) (t : term), h.read b = some t →
        (qsort_mem compare_weight hc a n).read b = some t) := by
  obtain ⟨lo, hi, hle, hlen, hlo, hhi, hcopied, -⟩ :=
    autocomplete_any insertionQsort terms substr hsize
  have hcons := compare_weight_consistent _ hnan
  rw [hcopied] at hcons ⊢
  have hfresh := hmalloc h (hi - lo)
  obtain ⟨hc, e1, e2, e3⟩ := copy_loop_spec h p terms lo (malloc h (hi - lo)) (hi - lo) hstore
    (by omega) hfresh (hi - lo) (le_refl _)
  have hn : ((hi : Int) - 1 - (lo : Int) + 1) = ((hi - lo : Nat) : Int) := by omega
  refine ⟨hc, malloc h (hi - lo), hi - lo, ?_, e3, hcons, fun b t hb => ?_⟩
  · unfold autocomplete_mem
    rw [Int.toNat_ofNat, hstore]
    simp only []
    rw [hlo, hhi]
    simp only []
    rw [hn]
    have hnn : ¬ (((hi - lo : Nat) : Int) < 0) := by omega
    rw [if_neg hnn, Int.toNat_ofNat, e1]
  · have hout : b < malloc h (hi - lo) ∨ malloc h (hi - lo) + (hi - lo) ≤ b := by
      by_contra hcon
      have hf := hfresh (b - malloc h (hi - lo)) (by omega)
      have : malloc h (hi - lo) + (b - malloc h (hi - lo)) = b := by omega
      rw [this, hb] at hf
      cases hf
    rw [(hmem compare_weight hc _ _ _ e3 hcons).2 b hout, e2 b hout, hb]

theorem autocomplete_mem_of_highest_none (malloc : Heap → Nat → Nat)
    (qsort_mem : (term → term → Int) → Heap → Nat → Nat → Heap)
    (h : Heap) (p : Nat) (terms : List term) (substr : CString)
    (hl : load h p terms.length = some terms)
    (hh : highest_match terms terms.length substr = none) :
    autocomplete_mem malloc qsort_mem h p terms.length substr = none := by
  unfold autocomplete_mem
  rw [Int.toNat_ofNat, hl]
  simp only []
  rw [hh]
  cases lowest_match terms terms.length substr <;> rfl

/-- C12, as amended (no mutation, idempotence): with a `malloc` and a library sort that meet
their contracts, the sort rearranging an array by its contents alone, for every store of at most
`2^30` entries held in memory and every prefix such that no entry that `autocomplete` copies has
a NaN weight, `autocomplete` returns and keeps every object stored before the call, so that the
store holds the same entries at every index, and a second call returns and answers the same
sequence as the first. -/
theorem no_mutation (malloc : Heap → Nat → Nat)
    (qsort_mem : (term → term → Int) → Heap → Nat → Nat → Heap)
    (hmalloc : MallocContract malloc) (hmem : QsortMemContract qsort_mem)
    (hdet : QsortMemDeterministic qsort_mem)
    (h : Heap) (terms_ptr : Nat) (terms : List term) (substr : CString)
    (hstore : load h terms_ptr terms.length = some terms)
    (hsize : terms.length ≤ 1073741824)
    (hnan : NoNaN (copied terms terms.length substr)) :
    ∃ (h1 : Heap) (answer1 : Nat) (h2 : Heap) (answer2 : Nat) (n_answer : Int)
      (result : List term),
      autocomplete_mem malloc qsort_mem h terms_ptr terms.length substr =
        some (h1, answer1, n_answer) ∧
      (∀ (a : Nat) (t : term), h.read a = some t → h1.read a = some t) ∧
      load h1 terms_ptr terms.length = some terms ∧
      load h1 answer1 n_answer.toNat = some result ∧
      autocomplete_mem malloc qsort_mem h1 terms_ptr terms.length substr =
        some (h2, answer2, n_answer) ∧
      (∀ (a : Nat) (t : term), h1.read a = some t → h2.read a = some t) ∧
      load h2 terms_ptr terms.length = some terms ∧
      load h2 answer2 n_answer.toNat = some result := by
  have hsz : (terms.length : Int) ≤ 1073741824 := by exact_mod_cast hsize
  obtain ⟨hc1, a1, n1, r1, l1, c1, k1⟩ :=
    autocomplete_mem_spec malloc qsort_mem hmalloc hmem h terms_ptr terms substr hstore hsz hnan
  have hstore1 := load_keep _ _ _ _ _ hstore k1
  obtain ⟨hc2, a2, n2, r2, l2, c2, k2⟩ :=
    autocomplete_mem_spec malloc qsort_mem hmalloc hmem _ terms_ptr terms substr hstore1 hsz hnan
  have hn : n2 = n1 := by
    have e1 := ((load_iff _ _ _ _).mp l1).1
    have e2 := ((load_iff _ _ _ _).mp l2).1
    omega
  subst hn
  obtain ⟨res, hres, -, -⟩ := (hmem compare_weight hc1 a1 n2 _ l1 c1).1
  refine ⟨_, a1, _, a2, (n2 : Int), res, r1, k1, hstore1, ?_, r2, k2,
    load_keep _ _ _ _ _ hstore1 k2, ?_⟩
  · rw [Int.toNat_ofNat]; exact hres
  · rw [Int.toNat_ofNat, ← hdet compare_weight hc1 hc2 a1 a2 n2 _ l1 l2 c1]; exact hres

theorem no_mutation_witness :
    MallocContract bumpMalloc ∧ QsortMemContract (blockQsort insertionQsort) ∧
      QsortMemDeterministic (blockQsort insertionQsort) ∧
      autocomplete_mem bumpMalloc (blockQsort insertionQsort) heap4 1 store4.length s_ap =
        some (heap4 ++ [some ⟨s_apex, .finite 5, by decide⟩, some ⟨s_ape, .finite 1, by decide⟩],
          5, 2) ∧
      ∃ (h1 : Heap) (answer1 : Nat) (h2 : Heap) (answer2 : Nat) (n_answer : Int)
        (result : List term),
        autocomplete_mem bumpMalloc (blockQsort insertionQsort) heap4 1 store4.length s_ap =
          some (h1, answer1, n_answer) ∧
        (∀ (a : Nat) (t : term), heap4.read a = some t → h1.read a = some t) ∧
        load h1 1 store4.length = some store4 ∧
        load h1 answer1 n_answer.toNat = some result ∧
        autocomplete_mem bumpMalloc (blockQsort insertionQsort) h1 1 store4.length s_ap =
          some (h2, answer2, n_answer) ∧
        (∀ (a : Nat) (t : term), h1.read a = some t → h2.read a = some t) ∧
        load h2 1 store4.length = some store4 ∧
        load h2 answer2 n_answer.toNat = some result :=
  ⟨bumpMalloc_contract, blockQsort_contract insertionQsort insertionQsort_contract,
    blockQsort_deterministic insertionQsort insertionQsort_contract, by decide,
    no_mutation bumpMalloc (blockQsort insertionQsort) bumpMalloc_contract
      (blockQsort_contract insertionQsort insertionQsort_contract)
      (blockQsort_deterministic insertionQsort insertionQsort_contract)
      heap4 1 store4 s_ap (by decide) (by decide) (by decide)⟩

/-- C12, as stated, fails. On the store of `2^30 + 1` copies of `ant` with the prefix "car",
`autocomplete` does not return: `right + left` overflows. On the store `ant`, `ap`, `ape` of
weights 2.0, NaN, 1.0 with the prefix "a", `compare_weight` is not a consistent comparator, C
leaves `qsort` undefined, and with the library sort `wildQsort`, which meets the contract, the
call leaves `ant` at index 2 of the store, where `ape` was. On the store `ant`, `ape` of equal
weights with the prefix "a" and the library sort `addressQsort`, which meets the contract, the
store is unchanged, the first call answers `ant`, `ape` and the second `ape`, `ant`. -/
theorem no_mutation_fails_beyond_bounds :
    (MallocContract bumpMalloc ∧ QsortMemContract (blockQsort insertionQsort) ∧
      QsortMemDeterministic (blockQsort insertionQsort) ∧
      load (bigStore.map some) 0 bigStore.length = some bigStore ∧
      autocomplete_mem bumpMalloc (blockQsort insertionQsort) (bigStore.map some) 0
        bigStore.length s_car = none) ∧
      (QsortMemContract wildQsort ∧ QsortMemDeterministic wildQsort ∧
        load heapMixed 0 storeMixed.length = some storeMixed ∧
        ¬ NoNaN (copied storeMixed storeMixed.length s_a) ∧
        autocomplete_mem bumpMalloc wildQsort heapMixed 0 storeMixed.length s_a =
          some ([some ⟨s_ant, .finite 2, by decide⟩, some ⟨s_ap, .nan, by decide⟩,
            some ⟨s_ant, .finite 2, by decide⟩, some ⟨s_ap, .nan, by decide⟩,
            some ⟨s_ape, .finite 1, by decide⟩, some ⟨s_ape, .finite 1, by decide⟩], 3, 3) ∧
        load [some ⟨s_ant, .finite 2, by decide⟩, some ⟨s_ap, .nan, by decide⟩,
            some ⟨s_ant, .finite 2, by decide⟩, some ⟨s_ap, .nan, by decide⟩,
            some ⟨s_ape, .finite 1, by decide⟩, some ⟨s_ape, .finite 1, by decide⟩] 0
          storeMixed.length ≠ some storeMixed) ∧
      (QsortMemContract addressQsort ∧
        load heapTie 0 storeTie.length = some storeTie ∧
        NoNaN (copied storeTie storeTie.length s_a) ∧
        autocomplete_mem bumpMalloc addressQsort heapTie 0 storeTie.length s_a =
          some (heapTie ++ [some ⟨s_ant, .finite 1, by decide⟩,
            some ⟨s_ape, .finite 1, by decide⟩], 2, 2) ∧
        autocomplete_mem bumpMalloc addressQsort
            (heapTie ++ [some ⟨s_ant, .finite 1, by decide⟩,
              some ⟨s_ape, .finite 1, by decide⟩]) 0 storeTie.length s_a =
          some (heapTie ++ [some ⟨s_ant, .finite 1, by decide⟩,
            some ⟨s_ape, .finite 1, by decide⟩, some ⟨s_ape, .finite 1, by decide⟩,
            some ⟨s_ant, .finite 1, by decide⟩], 4, 2) ∧
        load (heapTie ++ [some ⟨s_ant, .finite 1, by decide⟩,
            some ⟨s_ape, .finite 1, by decide⟩]) 2 2 =
          some [⟨s_ant, .finite 1, by decide⟩, ⟨s_ape, .finite 1, by decide⟩] ∧
        load (heapTie ++ [some ⟨s_ant, .finite 1, by decide⟩,
            some ⟨s_ape, .finite 1, by decide⟩, some ⟨s_ape, .finite 1, by decide⟩,
            some ⟨s_ant, .finite 1, by decide⟩]) 4 2 =
          some [⟨s_ape, .finite 1, by decide⟩, ⟨s_ant, .finite 1, by decide⟩]) :=
  ⟨⟨bumpMalloc_contract, blockQsort_contract insertionQsort insertionQsort_contract,
      blockQsort_deterministic insertionQsort insertionQsort_contract,
      load_map_some bigStore,
      autocomplete_mem_of_highest_none _ _ _ _ _ _ (load_map_some bigStore)
        (bigStore_highest s_car (by decide))⟩,
    ⟨wildQsort_contract, wildQsort_deterministic, by decide, by decide, by decide, by decide⟩,
    addressQsort_contract, by decide, by decide, by decide, by decide, by decide, by decide⟩

/-! ## Claims on the comparisons -/

theorem strncmpBytes_strict_initial : ∀ (t p : List Nat), (∀ x ∈ p, 0 < x) → t <+: p → t ≠ p →
    strncmpBytes t p p.length < 0
  | [], [], _, _, hne => absurd rfl hne
  | [], c :: p, hp, _, _ => by
    have := hp c (by simp)
    simp only [strncmpBytes, List.length_cons]
    omega
  | x :: t, [], _, hpre, _ => by simp at hpre
  | x :: t, c :: p, hp, hpre, hne => by
    obtain ⟨rfl, hpre2⟩ := List.cons_prefix_cons.mp hpre
    have ih := strncmpBytes_strict_initial t p (fun v hv => hp v (by simp [hv])) hpre2
      (fun h => hne (by rw [h]))
    simpa [strncmpBytes] using ih

/-- C13 (truncated comparison is prefix matching): `strncmp(t, p, len(p))` is 0 exactly when
the bytes of `p` are the first bytes of `t`; a text strictly shorter than `p` never compares
equal, and it compares below `p` when it is a strict initial part of `p`. -/
theorem strncmp_is_prefix_match (t p : CString) :
    (strncmp t p (strlen p) = 0 ↔ startsWith t p) ∧
      (strlen t < strlen p → strncmp t p (strlen p) ≠ 0 ∧ ¬ startsWith t p) ∧
      (t.bytes <+: p.bytes → t.bytes ≠ p.bytes → strncmp t p (strlen p) < 0) := by
  refine ⟨strncmp_eq_zero_iff t p, ?_, ?_⟩
  · intro hlt
    have hno : ¬ startsWith t p := fun hst => by
      have := List.IsPrefix.length_le hst
      simp only [strlen] at hlt
      omega
    exact ⟨fun h0 => hno ((strncmp_eq_zero_iff t p).mp h0), hno⟩
  · intro hpre hne
    exact strncmpBytes_strict_initial t.bytes p.bytes p.pos hpre hne

theorem strcmpBytes_neg_lex : ∀ (a b : List Nat), strcmpBytes a b < 0 →
    List.Lex (fun x y : Nat => x < y) a b
  | [], [], h => by simp [strcmpBytes] at h
  | [], y :: b, _ => List.Lex.nil
  | x :: a, [], h => by
    simp [strcmpBytes] at h
    omega
  | x :: a, y :: b, h => by
    simp only [strcmpBytes] at h
    split_ifs at h with e
    · subst e
      exact List.Lex.cons (strcmpBytes_neg_lex a b h)
    · exact List.Lex.rel (by omega)

theorem strcmpBytes_zero_eq : ∀ (a b : List Nat), (∀ x ∈ a, 0 < x) → (∀ x ∈ b, 0 < x) →
    strcmpBytes a b = 0 → a = b
  | [], [], _, _, _ => rfl
  | [], y :: b, _, hb, h => by
    have := hb y (by simp)
    simp [strcmpBytes] at h
    omega
  | x :: a, [], ha, _, h => by
    have := ha x (by simp)
    simp [strcmpBytes] at h
    omega
  | x :: a, y :: b, ha, hb, h => by
    simp only [strcmpBytes] at h
    split_ifs at h with e
    · subst e
      rw [strcmpBytes_zero_eq a b (fun v hv => ha v (by simp [hv]))
        (fun v hv => hb v (by simp [hv])) h]
    · omega

theorem strcmpBytes_strict_initial : ∀ (a b : List Nat), (∀ x ∈ b, 0 < x) → a <+: b → a ≠ b →
    strcmpBytes a b < 0
  | [], [], _, _, hne => absurd rfl hne
  | [], c :: b, hb, _, _ => by
    have := hb c (by simp)
    simp only [strcmpBytes]
    omega
  | x :: a, [], _, hpre, _ => by simp at hpre
  | x :: a, c :: b, hb, hpre, hne => by
    obtain ⟨rfl, hpre2⟩ := List.cons_prefix_cons.mp hpre
    have ih := strcmpBytes_strict_initial a b (fun v hv => hb v (by simp [hv])) hpre2
      (fun h => hne (by rw [h]))
    simpa [strcmpBytes] using ih

theorem CString.eq_of_bytes {a b : CString} (h : a.bytes = b.bytes) : a = b := by
  cases a; cases b; cases h; rfl

/-- C14 (store ordering is byte-wise lexicographic): `compare_terms_lex(a, b)` is negative,
zero or positive exactly when the text of `a` is less than, equal to or greater than the text
of `b` in the lexicographic order of their byte sequences; when the text of `a` is a strict
initial part of the text of `b` the result is negative. -/
theorem compare_terms_lex_is_lexicographic (a b : term) :
    (compare_terms_lex a b < 0 ↔ a.term.bytes < b.term.bytes) ∧
      (compare_terms_lex a b = 0 ↔ a.term = b.term) ∧
      (0 < compare_terms_lex a b ↔ b.term.bytes < a.term.bytes) ∧
      (a.term.bytes <+: b.term.bytes → a.term.bytes ≠ b.term.bytes →
        compare_terms_lex a b < 0) := by
  have hlt : compare_terms_lex a b < 0 → a.term.bytes < b.term.bytes :=
    fun h => strcmpBytes_neg_lex _ _ h
  have heq : compare_terms_lex a b = 0 → a.term = b.term :=
    fun h => CString.eq_of_bytes (strcmpBytes_zero_eq _ _ a.term.pos b.term.pos h)
  have hgt : 0 < compare_terms_lex a b → b.term.bytes < a.term.bytes :=
    fun h => strcmpBytes_neg_lex _ _ ((strcmpBytes_swap b.term.bytes a.term.bytes).1.mpr h)
  have htri : compare_terms_lex a b < 0 ∨ compare_terms_lex a b = 0 ∨
      0 < compare_terms_lex a b := by omega
  refine ⟨⟨hlt, fun h => ?_⟩, ⟨heq, fun h => ?_⟩, ⟨hgt, fun h => ?_⟩, fun hpre hne => ?_⟩
  · rcases htri with h1 | h1 | h1
    · exact h1
    · rw [heq h1] at h
      exact absurd h (lt_irrefl _)
    · exact absurd h (lt_asymm (hgt h1))
  · simp [compare_terms_lex, strcmp, h, strcmpBytes_refl]
  · rcases htri with h1 | h1 | h1
    · exact absurd h (lt_asymm (hlt h1))
    · rw [heq h1] at h
      exact absurd h (lt_irrefl _)
    · exact h1
  · exact strcmpBytes_strict_initial _ _ b.term.pos hpre hne

theorem strncmp_is_prefix_match_witness :
    (strncmp s_apex s_ap (strlen s_ap) = 0 ∧ startsWith s_apex s_ap) ∧
      (strlen s_ap < strlen s_ape ∧ s_ap.bytes <+: s_ape.bytes ∧ s_ap.bytes ≠ s_ape.bytes ∧
        strncmp s_ap s_ape (strlen s_ape) < 0) :=
  ⟨⟨by decide, (strncmp_is_prefix_match s_apex s_ap).1.mp (by decide)⟩,
    by decide, by decide, by decide,
    (strncmp_is_prefix_match s_ap s_ape).2.2 (by decide) (by decide)⟩

theorem compare_terms_lex_is_lexicographic_witness :
    s_ape.bytes <+: s_apex.bytes ∧ s_ape.bytes ≠ s_apex.bytes ∧
      compare_terms_lex ⟨s_ape, .finite 1, by decide⟩ ⟨s_apex, .finite 5, by decide⟩ < 0 ∧
      s_ape.bytes < s_apex.bytes :=
  ⟨by decide, by decide,
    (compare_terms_lex_is_lexicographic ⟨s_ape, .finite 1, by decide⟩ ⟨s_apex, .finite 5, by decide⟩).2.2.2
      (by decide) (by decide),
    (compare_terms_lex_is_lexicographic ⟨s_ape, .finite 1, by decide⟩ ⟨s_apex, .finite 5, by decide⟩).1.mp
      (by decide)⟩


/-! ## Claims on arrays that need not be sorted -/

/-- C15, as amended (the result range is well formed for any array): for every array of at most
`2^30` entries, sorted or not, and every prefix, both searches return with
`0 ≤ low ≤ nterms`, `-1 ≤ high ≤ nterms - 1` and `high ≥ low - 1`; `autocomplete` returns with
`*n_answer = high - low + 1 ≥ 0`, with no entry when `high < low`, and every index `i + low`
read by the copy loop is an index of the array. -/
theorem range_well_formed (qsort : (term → term → Int) → List term → List term)
    (hq : QsortContract qsort) (terms : List term) (substr : CString)
    (hsize : terms.length ≤ 1073741824) :
    ∃ low high : Int, lowest_match terms terms.length substr = some low ∧
      highest_match terms terms.length substr = some high ∧
      0 ≤ low ∧ low ≤ (terms.length : Int) ∧ -1 ≤ high ∧ high ≤ (terms.length : Int) - 1 ∧
      low - 1 ≤ high ∧
      ∃ answer : List term,
        autocomplete qsort terms terms.length substr = some (answer, high - low + 1) ∧
        0 ≤ high - low + 1 ∧
        (high < low → answer = []) ∧
        (∀ i : Int, 0 ≤ i → i < high - low + 1 →
          0 ≤ i + low ∧ i + low < (terms.length : Int) ∧
            ∃ t : term, index terms (i + low) = some t) := by
  obtain ⟨lo, hi, hle, hlen, hlo, hhi, -, hauto⟩ :=
    autocomplete_any qsort terms substr (by exact_mod_cast hsize)
  refine ⟨lo, (hi : Int) - 1, hlo, hhi, by omega, by omega, by omega, by omega, by omega,
    qsort compare_weight ((terms.drop lo).take (hi - lo)), ?_, by omega, ?_, ?_⟩
  · rw [hauto]; congr 2; omega
  · intro hlt
    have h0 : hi - lo = 0 := by omega
    rw [h0, List.take_zero]
    exact qsort_nil qsort hq compare_weight
  · intro i h0 h1
    obtain ⟨t, ht, -⟩ := index_in_range terms (i + lo) (by omega) (by omega)
    exact ⟨by omega, by omega, t, ht⟩

theorem range_well_formed_witness :
    QsortContract insertionQsort ∧ ¬ SortedStore entries4 ∧
      lowest_match entries4 entries4.length s_ap = some 0 ∧
      highest_match entries4 entries4.length s_ap = some 3 ∧
      ∃ low high : Int, lowest_match entries4 entries4.length s_ap = some low ∧
        highest_match entries4 entries4.length s_ap = some high ∧
        0 ≤ low ∧ low ≤ (entries4.length : Int) ∧ -1 ≤ high ∧
        high ≤ (entries4.length : Int) - 1 ∧ low - 1 ≤ high ∧
        ∃ answer : List term,
          autocomplete insertionQsort entries4 entries4.length s_ap =
            some (answer, high - low + 1) ∧
          0 ≤ high - low + 1 ∧
          (high < low → answer = []) ∧
          (∀ i : Int, 0 ≤ i → i < high - low + 1 →
            0 ≤ i + low ∧ i + low < (entries4.length : Int) ∧
              ∃ t : term, index entries4 (i + low) = some t) :=
  ⟨insertionQsort_contract, by decide, by decide, by decide,
    range_well_formed insertionQsort insertionQsort_contract entries4 s_ap (by decide)⟩

/-- C15, as stated, fails. On the array of `2^30 + 1` copies of `ant` with the prefix "car", the
sum `right + left` overflows in both searches: neither of them returns a bound, and
`autocomplete` does not return. -/
theorem range_not_formed_on_large_store :
    lowest_match bigStore bigStore.length s_car = none ∧
      highest_match bigStore bigStore.length s_car = none ∧
      autocomplete insertionQsort bigStore bigStore.length s_car = none :=
  ⟨bigStore_lowest s_car (by decide), bigStore_highest s_car (by decide),
    autocomplete_of_highest_none _ _ _ _ (bigStore_highest s_car (by decide))⟩

/-! ## Termination -/

/-- Any two amounts of fuel that cover the interval give the same run of the loop. -/
theorem searchLoop_fuel (terms : List term) (test : term → Bool) :
    ∀ (fuel fuel2 : Nat) (left right : Int), 0 ≤ left → left ≤ right + 1 →
      right < terms.length → right - left + 1 ≤ fuel → right - left + 1 ≤ fuel2 →
      searchLoop terms test fuel left right = searchLoop terms test fuel2 left right
  | 0, 0, _, _, _, _, _, _, _ => rfl
  | 0, fuel2 + 1, left, right, _, _, _, h3, _ => by
    have hn : ¬ left ≤ right := by omega
    simp only [searchLoop, hn, if_false]
  | fuel + 1, 0, left, right, _, _, _, _, h4 => by
    have hn : ¬ left ≤ right := by omega
    simp only [searchLoop, hn, if_false]
  | fuel + 1, fuel2 + 1, left, right, h0, h1, h2, h3, h4 => by
    by_cases hlr : left ≤ right
    · obtain ⟨hm1, hm2⟩ := mid_bounds left right h0 hlr
      simp only [searchLoop, hlr, if_true]
      split_ifs with hfit
      · cases index terms (Int.tdiv (right + left) 2) with
        | none => rfl
        | some t =>
          simp only []
          split_ifs
          · exact searchLoop_fuel terms test fuel fuel2 left _ h0 (by omega) (by omega)
              (by push_cast at h3; omega) (by push_cast at h4; omega)
          · exact searchLoop_fuel terms test fuel fuel2 _ right (by omega) (by omega) h2
              (by push_cast at h3; omega) (by push_cast at h4; omega)
      · rfl
    · simp only [searchLoop, hlr, if_false]

/-- C16, as amended (termination of the range searches): for every store of at most `2^30`
entries and every prefix both searches return; from any state `left`, `right` inside the array
their loops return with any fuel that covers `right - left + 1`, with the same value for any
two such fuels; and an iteration computes `right + left` within the range of `int` and picks
`mid` with `left ≤ mid ≤ right`, so that both `right = mid - 1` and `left = mid + 1` make
`right - left` strictly smaller. -/
theorem searches_terminate (terms : List term) (substr : CString)
    (hsize : terms.length ≤ 1073741824) :
    (∃ v : Int, lowest_match terms terms.length substr = some v) ∧
      (∃ v : Int, highest_match terms terms.length substr = some v) ∧
      (∀ (fuel fuel2 : Nat) (left right : Int), 0 ≤ left → left ≤ right + 1 →
        right < terms.length → right - left + 1 ≤ fuel → right - left + 1 ≤ fuel2 →
        (∃ v : Int,
          lowest_match_loop terms substr (int_of_size_t (strlen substr)) fuel left right =
            some v ∧
          lowest_match_loop terms substr (int_of_size_t (strlen substr)) fuel2 left right =
            some v ∧
          left ≤ v ∧ v ≤ right + 1) ∧
        (∃ v : Int,
          highest_match_loop terms substr (int_of_size_t (strlen substr)) fuel left right =
            some v ∧
          highest_match_loop terms substr (int_of_size_t (strlen substr)) fuel2 left right =
            some v ∧
          left - 1 ≤ v ∧ v ≤ right)) ∧
      (∀ left right : Int, 0 ≤ left → left ≤ right → right < terms.length →
        fitsInt (right + left) ∧
        left ≤ Int.tdiv (right + left) 2 ∧ Int.tdiv (right + left) 2 ≤ right ∧
        (Int.tdiv (right + left) 2 - 1) - left < right - left ∧
        right - (Int.tdiv (right + left) 2 + 1) < right - left) := by
  have hsz : (terms.length : Int) ≤ 1073741824 := by exact_mod_cast hsize
  obtain ⟨lo, hi, -, -, hlo, hhi, -, -⟩ := autocomplete_any insertionQsort terms substr hsz
  refine ⟨⟨_, hlo⟩, ⟨_, hhi⟩, ?_, ?_⟩
  · intro fuel fuel2 left right h0 h1 h2 h3 h4
    constructor
    · obtain ⟨k, hk, hk1, hk2⟩ := searchLoop_bounds terms
        (testLow substr (size_t_of_int (int_of_size_t (strlen substr)))) hsz
        fuel left right h0 h1 h2 h3
      refine ⟨k, ?_, ?_, hk1, hk2⟩
      · rw [lowest_match_loop_eq, hk]; rfl
      · rw [lowest_match_loop_eq, ← searchLoop_fuel terms _ fuel fuel2 left right h0 h1 h2 h3 h4,
          hk]; rfl
    · obtain ⟨k, hk, hk1, hk2⟩ := searchLoop_bounds terms
        (testHigh substr (size_t_of_int (int_of_size_t (strlen substr)))) hsz
        fuel left right h0 h1 h2 h3
      refine ⟨k - 1, ?_, ?_, by omega, by omega⟩
      · rw [highest_match_loop_eq, hk]; rfl
      · rw [highest_match_loop_eq, ← searchLoop_fuel terms _ fuel fuel2 left right h0 h1 h2 h3 h4,
          hk]; rfl
  · intro left right h0 hlr h2
    obtain ⟨hm1, hm2⟩ := mid_bounds left right h0 hlr
    exact ⟨fitsInt_sum _ hsz left right h0 hlr h2, hm1, hm2, by omega, by omega⟩

theorem searches_terminate_witness :
    lowest_match store4 store4.length s_ap = some 1 ∧
      highest_match store4 store4.length s_ap = some 2 ∧
      (∃ v : Int,
        lowest_match_loop store4 s_ap (int_of_size_t (strlen s_ap)) 4 0 3 = some v ∧
        lowest_match_loop store4 s_ap (int_of_size_t (strlen s_ap)) 9 0 3 = some v ∧
        0 ≤ v ∧ v ≤ 3 + 1) :=
  ⟨by decide, by decide,
    ((searches_terminate store4 s_ap (by decide)).2.2.1 4 9 0 3 (by decide) (by decide)
      (by decide) (by decide) (by decide)).1⟩

/-- C16, as stated, fails. On the store of `2^30 + 1` copies of `ant` with the prefix "car",
both loops move `left` up to `right = 2^30`, where `right + left = 2^31` is outside the range
of `int`: the sum overflows, no `mid` between `left` and `right` is computed, and neither
search returns. -/
theorem searches_overflow_on_large_store :
    ¬ fitsInt (1073741824 + 1073741824) ∧
      lowest_match bigStore bigStore.length s_car = none ∧
      highest_match bigStore bigStore.length s_car = none :=
  ⟨by decide, bigStore_lowest s_car (by decide), bigStore_highest s_car (by decide)⟩

/-! ## Claims on the value of `highest_match`, on narrowing and on the build -/

/-- C17, as amended (value of `highest_match`): on a sorted store of `n ≤ 2^30` entries, with a
prefix of fewer than `2^32` bytes, `highest_match` returns `k - 1` where `k` is the number of
entries whose truncated comparison with the prefix is `≤ 0`; `k` is the smallest index whose
truncated comparison is `> 0`, and `n` when there is none. -/
theorem highest_match_value (terms : List term) (substr : CString)
    (hsorted : SortedStore terms) (hsize : terms.length ≤ 1073741824)
    (hlen : strlen substr < 4294967296) :
    ∃ k : Nat,
      (terms.filter (fun t => decide (strncmp t.term substr (strlen substr) ≤ 0))).length = k ∧
      highest_match terms terms.length substr = some ((k : Int) - 1) ∧ k ≤ terms.length ∧
      (∀ (i : Nat) (t : term), terms[i]? = some t →
        0 < strncmp t.term substr (strlen substr) → k ≤ i) ∧
      (k < terms.length → ∃ t : term, terms[k]? = some t ∧
        0 < strncmp t.term substr (strlen substr)) ∧
      ((∀ (i : Nat) (t : term), terms[i]? = some t →
        strncmp t.term substr (strlen substr) ≤ 0) → k = terms.length) := by
  obtain ⟨k, hk, hk2, hk3, hk4⟩ :=
    highest_match_sorted hsorted substr (by exact_mod_cast hsize) hlen
  have hslice := filter_eq_slice terms
    (fun t => decide (strncmp t.term substr (strlen substr) ≤ 0)) 0 k (Nat.zero_le _)
    (fun i t ht => by
      simp only [decide_eq_true_eq]
      constructor
      · intro h; exact hk3 i t h.2 ht
      · intro h
        refine ⟨Nat.zero_le _, ?_⟩
        by_contra hc
        have := hk4 i t (by omega) ht
        omega)
  refine ⟨k, ?_, hk, hk2, ?_, ?_, ?_⟩
  · rw [hslice, List.length_take, List.length_drop]
    omega
  · intro i t ht hpos
    by_contra hc
    have := hk3 i t (by omega) ht
    omega
  · intro hlt
    exact ⟨terms[k], List.getElem?_eq_getElem hlt,
      hk4 k _ (le_refl _) (List.getElem?_eq_getElem hlt)⟩
  · intro hall
    by_contra hc
    have hlt : k < terms.length := by omega
    have h1 := hk4 k _ (le_refl _) (List.getElem?_eq_getElem hlt)
    have h2 := hall k _ (List.getElem?_eq_getElem hlt)
    omega

theorem highest_match_value_witness :
    SortedStore store4 ∧ highest_match store4 store4.length s_ap = some 2 ∧
      ∃ k : Nat,
        (store4.filter (fun t => decide (strncmp t.term s_ap (strlen s_ap) ≤ 0))).length = k ∧
        highest_match store4 store4.length s_ap = some ((k : Int) - 1) ∧ k ≤ store4.length ∧
        (∀ (i : Nat) (t : term), store4[i]? = some t →
          0 < strncmp t.term s_ap (strlen s_ap) → k ≤ i) ∧
        (k < store4.length → ∃ t : term, store4[k]? = some t ∧
          0 < strncmp t.term s_ap (strlen s_ap)) ∧
        ((∀ (i : Nat) (t : term), store4[i]? = some t →
          strncmp t.term s_ap (strlen s_ap) ≤ 0) → k = store4.length) :=
  ⟨by decide, by decide, highest_match_value store4 s_ap (by decide) (by decide) (by decide)⟩

/-- C17, as stated, fails. On the sorted store of `2^30 + 1` copies of `ant` with the prefix
"car", the sum `right + left` overflows and `highest_match` does not return. On the sorted
store `a`, `ant` with the prefix `longText` of `2^32` bytes, whose length is 0 once stored in an
`int`, `highest_match` returns 1 although a single entry compares `≤ 0` on the first `strlen`
bytes. -/
theorem highest_match_value_fails_beyond_bounds :
    (SortedStore bigStore ∧ highest_match bigStore bigStore.length s_car = none) ∧
      (SortedStore storeA ∧ highest_match storeA storeA.length longText = some 1 ∧
        (storeA.filter (fun t => decide (strncmp t.term longText (strlen longText) ≤ 0))).length
          = 1) :=
  ⟨⟨bigStore_sorted, bigStore_highest s_car (by decide)⟩,
    by decide, longText_storeA.2, by rw [longText_strlen]; decide⟩

theorem strncmpBytes_narrow_ge : ∀ (p q t : List Nat), p <+: q →
    0 ≤ strncmpBytes t q q.length → 0 ≤ strncmpBytes t p p.length
  | [], _, _, _, _ => by simp [strncmpBytes]
  | c :: p, [], _, hpre, _ => by simp at hpre
  | c :: p, d :: q, [], hpre, h => by
    obtain ⟨rfl, -⟩ := List.cons_prefix_cons.mp hpre
    simpa [strncmpBytes] using h
  | c :: p, d :: q, x :: t, hpre, h => by
    obtain ⟨rfl, hpre2⟩ := List.cons_prefix_cons.mp hpre
    simp only [strncmpBytes, List.length_cons] at h ⊢
    split_ifs at h ⊢ with e
    · exact strncmpBytes_narrow_ge p q t hpre2 h
    · exact h

theorem strncmpBytes_narrow_gt : ∀ (p q t : List Nat), p <+: q →
    0 < strncmpBytes t p p.length → 0 < strncmpBytes t q q.length
  | [], _, _, _, h => by simp [strncmpBytes] at h
  | c :: p, [], _, hpre, _ => by simp at hpre
  | c :: p, d :: q, [], hpre, h => by
    obtain ⟨rfl, -⟩ := List.cons_prefix_cons.mp hpre
    simpa [strncmpBytes] using h
  | c :: p, d :: q, x :: t, hpre, h => by
    obtain ⟨rfl, hpre2⟩ := List.cons_prefix_cons.mp hpre
    simp only [strncmpBytes, List.length_cons] at h ⊢
    split_ifs at h ⊢ with e
    · exact strncmpBytes_narrow_gt p q t hpre2 h
    · exact h

/-- C18, as amended (narrowing the prefix narrows the result): on a sorted store of at most
`2^30` entries, when `q` has fewer than `2^32` bytes and starts with `p`, and no entry that
starts with `p` has a NaN weight, `lowest_match` for `p` is at most `lowest_match` for `q`,
`highest_match` for `q` is at most `highest_match` for `p`, and every entry returned by
`autocomplete` for `q` is returned for `p`, with at least the same number of occurrences. -/
theorem narrowing (qsort : (term → term → Int) → List term → List term)
    (hq : QsortContract qsort) (terms : List term) (p q : CString)
    (hsorted : SortedStore terms) (hsize : terms.length ≤ 1073741824)
    (hlen : strlen q < 4294967296) (hpq : startsWith q p)
    (hnan : NoNaN (matching terms p)) :
    ∃ (lowp highp lowq highq : Int) (answerp answerq : List term) (np nq : Int),
      lowest_match terms terms.length p = some lowp ∧
      lowest_match terms terms.length q = some lowq ∧
      highest_match terms terms.length p = some highp ∧
      highest_match terms terms.length q = some highq ∧
      lowp ≤ lowq ∧ highq ≤ highp ∧
      autocomplete qsort terms terms.length p = some (answerp, np) ∧
      autocomplete qsort terms terms.length q = some (answerq, nq) ∧
      answerq.Subperm answerp ∧ (∀ t ∈ answerq, t ∈ answerp) ∧ nq ≤ np := by
  have hsz : (terms.length : Int) ≤ 1073741824 := by exact_mod_cast hsize
  have hlenp : strlen p < 4294967296 := by
    have := List.IsPrefix.length_le hpq
    simp only [strlen] at hlen ⊢
    omega
  obtain ⟨lp, hlp, hlp2, hlp3, hlp4⟩ := lowest_match_sorted hsorted p hsz hlenp
  obtain ⟨lq, hlq, hlq2, hlq3, hlq4⟩ := lowest_match_sorted hsorted q hsz hlen
  obtain ⟨hp, hhp, hhp2, hhp3, hhp4⟩ := highest_match_sorted hsorted p hsz hlenp
  obtain ⟨hq', hhq, hhq2, hhq3, hhq4⟩ := highest_match_sorted hsorted q hsz hlen
  have hlow : lp ≤ lq := by
    by_contra hc
    have hlt : lq < terms.length := by omega
    have h1 := hlq4 lq _ (le_refl _) (List.getElem?_eq_getElem hlt)
    have h2 := strncmpBytes_narrow_ge p.bytes q.bytes _ hpq h1
    have h3 := hlp3 lq _ (by omega) (List.getElem?_eq_getElem hlt)
    simp only [strncmp, strlen] at h3
    omega
  have hhigh : hq' ≤ hp := by
    by_contra hc
    have hlt : hp < terms.length := by omega
    have h1 := hhp4 hp _ (le_refl _) (List.getElem?_eq_getElem hlt)
    have h2 := strncmpBytes_narrow_gt p.bytes q.bytes _ hpq h1
    have h3 := hhq3 hp _ (by omega) (List.getElem?_eq_getElem hlt)
    simp only [strncmp, strlen] at h3
    omega
  have hsub : (matching terms q).Sublist (matching terms p) :=
    List.monotone_filter_right terms (fun t ht => by
      simp only [decide_eq_true_eq, startsWith] at ht ⊢
      exact hpq.trans ht)
  have hnanq : NoNaN (matching terms q) := fun t ht => hnan t (hsub.subset ht)
  have hsubperm : (qsort compare_weight (matching terms q)).Subperm
      (qsort compare_weight (matching terms p)) :=
    ((hq.1 _ _ (compare_weight_consistent _ hnanq)).subperm.trans hsub.subperm).trans
      (hq.1 _ _ (compare_weight_consistent _ hnan)).symm.subperm
  exact ⟨lp, (hp : Int) - 1, lq, (hq' : Int) - 1, _, _, _, _, hlp, hlq, hhp, hhq,
    by omega, by omega, autocomplete_sorted qsort hsorted p hsz hlenp,
    autocomplete_sorted qsort hsorted q hsz hlen,
    hsubperm, fun t ht => hsubperm.subset ht, by
      have := hsub.length_le
      omega⟩

theorem narrowing_witness :
    QsortContract insertionQsort ∧ SortedStore store4 ∧ startsWith s_ape s_ap ∧
      autocomplete insertionQsort store4 store4.length s_ap =
        some ([⟨s_apex, .finite 5, by decide⟩, ⟨s_ape, .finite 1, by decide⟩], 2) ∧
      autocomplete insertionQsort store4 store4.length s_ape =
        some ([⟨s_apex, .finite 5, by decide⟩, ⟨s_ape, .finite 1, by decide⟩], 2) ∧
      ∃ (lowp highp lowq highq : Int) (answerp answerq : List term) (np nq : Int),
        lowest_match store4 store4.length s_ap = some lowp ∧
        lowest_match store4 store4.length s_ape = some lowq ∧
        highest_match store4 store4.length s_ap = some highp ∧
        highest_match store4 store4.length s_ape = some highq ∧
        lowp ≤ lowq ∧ highq ≤ highp ∧
        autocomplete insertionQsort store4 store4.length s_ap = some (answerp, np) ∧
        autocomplete insertionQsort store4 store4.length s_ape = some (answerq, nq) ∧
        answerq.Subperm answerp ∧ (∀ t ∈ answerq, t ∈ answerp) ∧ nq ≤ np :=
  ⟨insertionQsort_contract, by decide, by decide, by decide, by decide,
    narrowing insertionQsort insertionQsort_contract store4 s_ap s_ape (by decide) (by decide)
      (by decide) (by decide) (by decide)⟩

/-- C18, as stated, fails. On the sorted store of `2^30 + 1` copies of `ant` with `p = q =`
"car", the sum `right + left` overflows and `lowest_match` does not return. On the sorted store
`a`, `ant` with `p =` "ab" and `q = longText`, which has `2^32` bytes and starts with "ab",
`lowest_match` returns 1 for `p` and 0 for `q`, and `autocomplete` returns both entries for `q`
and none for `p`. On the sorted store `ant`, `ap`, `ape` of weights 2.0, NaN, 1.0 with `p =`
"a" and `q =` "ap", `compare_weight` is not consistent on the entries that start with `p`, C
leaves `qsort` undefined, and with the library sort `droppingQsort`, which meets the contract,
`autocomplete` returns `ap`, `ape` for `q` and nothing for `p`. -/
theorem narrowing_fails_beyond_bounds :
    (SortedStore bigStore ∧ startsWith s_car s_car ∧
      lowest_match bigStore bigStore.length s_car = none) ∧
      (SortedStore storeA ∧ startsWith longText s_ab ∧
        lowest_match storeA storeA.length s_ab = some 1 ∧
        lowest_match storeA storeA.length longText = some 0 ∧
        autocomplete insertionQsort storeA storeA.length s_ab = some ([], 0) ∧
        autocomplete insertionQsort storeA storeA.length longText =
          some ([⟨s_ant, .finite 2, by decide⟩, ⟨s_a, .finite 1, by decide⟩], 2)) ∧
      (QsortContract droppingQsort ∧ SortedStore storeMixed ∧ startsWith s_ap s_a ∧
        autocomplete droppingQsort storeMixed storeMixed.length s_a = some ([], 3) ∧
        autocomplete droppingQsort storeMixed storeMixed.length s_ap =
          some ([⟨s_ap, .nan, by decide⟩, ⟨s_ape, .finite 1, by decide⟩], 2)) :=
  ⟨⟨bigStore_sorted, by decide, bigStore_lowest s_car (by decide)⟩,
    ⟨by decide, by decide, by decide, longText_storeA.1, by decide,
      (longText_storeA_autocomplete insertionQsort).1.trans (by decide)⟩,
    droppingQsort_contract, by decide, by decide, by decide, by decide⟩

/-- C19 (build preserves content): for every input sequence, the store produced by the sort of
`read_in_terms` is a permutation of the input, and `nterms` is the length of both. -/
theorem build_preserves_content (qsort : (term → term → Int) → List term → List term)
    (hq : QsortContract qsort) (entries : List term) :
    (read_in_terms qsort entries).1.Perm entries ∧
      (read_in_terms qsort entries).2 = (entries.length : Int) ∧
      (read_in_terms qsort entries).1.length = entries.length :=
  ⟨hq.1 _ _ (compare_terms_lex_consistent entries), rfl,
    (hq.1 _ _ (compare_terms_lex_consistent entries)).length_eq⟩

theorem build_preserves_content_witness :
    QsortContract insertionQsort ∧ read_in_terms insertionQsort entries4 = (store4, 4) ∧
      (read_in_terms insertionQsort entries4).1.Perm entries4 ∧
      (read_in_terms insertionQsort entries4).2 = (entries4.length : Int) ∧
      (read_in_terms insertionQsort entries4).1.length = entries4.length :=
  ⟨insertionQsort_contract, by decide,
    build_preserves_content insertionQsort insertionQsort_contract entries4⟩

/-! ## The midpoint in 32-bit arithmetic -/

theorem lowest_match_states_eq (terms : List term) (substr : CString) (len : Int) :
    ∀ (fuel : Nat) (left right : Int),
      lowest_match_states terms substr len fuel left right =
        searchStates terms (testLow substr (size_t_of_int len)) fuel left right
  | 0, _, _ => rfl
  | fuel + 1, left, right => by
    simp only [lowest_match_states, searchStates, testLow]
    split_ifs with h1
    · cases index terms (Int.tdiv (right + left) 2) with
      | none => rfl
      | some t =>
        simp only [decide_eq_true_eq]
        split_ifs
        · rw [lowest_match_states_eq terms substr len fuel]
        · rw [lowest_match_states_eq terms substr len fuel]
    · rfl

theorem highest_match_states_eq (terms : List term) (substr : CString) (len : Int) :
    ∀ (fuel : Nat) (left right : Int),
      highest_match_states terms substr len fuel left right =
        searchStates terms (testHigh substr (size_t_of_int len)) fuel left right
  | 0, _, _ => rfl
  | fuel + 1, left, right => by
    simp only [highest_match_states, searchStates, testHigh]
    split_ifs with h1
    · cases index terms (Int.tdiv (right + left) 2) with
      | none => rfl
      | some t =>
        simp only [decide_eq_true_eq]
        split_ifs
        · rw [highest_match_states_eq terms substr len fuel]
        · rw [highest_match_states_eq terms substr len fuel]
    · rfl

/-- Every state in which the body of a loop is entered lies inside the array. -/
theorem searchStates_inv (terms : List term) (test : term → Bool) :
    ∀ (fuel : Nat) (left right : Int), 0 ≤ left → right < terms.length →
      ∀ s ∈ searchStates terms test fuel left right,
        0 ≤ s.1 ∧ s.1 ≤ s.2 ∧ s.2 < (terms.length : Int)
  | 0, _, _, _, _, s, hs => by simp [searchStates] at hs
  | fuel + 1, left, right, h0, h2, s, hs => by
    simp only [searchStates] at hs
    split_ifs at hs with hlr
    · obtain ⟨hm1, hm2⟩ := mid_bounds left right h0 hlr
      rcases List.mem_cons.mp hs with rfl | hs
      · exact ⟨h0, hlr, h2⟩
      · cases hidx : index terms (Int.tdiv (right + left) 2) with
        | none => simp [hidx] at hs
        | some t =>
          simp only [hidx] at hs
          split_ifs at hs
          · exact searchStates_inv terms test fuel left _ h0 (by omega) s hs
          · exact searchStates_inv terms test fuel _ right (by omega) h2 s hs
    · simp at hs

/-- When `test` fails on every entry the loop moves `left` up to `right`: the state
`(right, right)` is reached. -/
theorem searchStates_reach (terms : List term) (test : term → Bool)
    (hall : ∀ (i : Int) (t : term), index terms i = some t → test t = false) :
    ∀ (fuel : Nat) (left right : Int), 0 ≤ left → left ≤ right → right < terms.length →
      right - left + 1 ≤ fuel → (right, right) ∈ searchStates terms test fuel left right
  | 0, left, right, _, h1, _, h3 => by
    push_cast at h3; omega
  | fuel + 1, left, right, h0, h1, h2, h3 => by
    obtain ⟨hm1, hm2⟩ := mid_bounds left right h0 h1
    obtain ⟨t, ht, -⟩ := index_in_range terms (Int.tdiv (right + left) 2) (by omega) (by omega)
    simp only [searchStates, h1, if_true, ht, hall _ t ht]
    by_cases heq : left = right
    · rw [heq]; exact List.mem_cons_self _ _
    · have hlt : Int.tdiv (right + left) 2 < right := by
        rw [Int.tdiv_eq_ediv (by omega) (by omega)]
        omega
      exact List.mem_cons_of_mem _ (searchStates_reach terms test hall fuel _ right (by omega)
        (by omega) h2 (by push_cast at h3; omega))

/-- On a store of at most `2^30` entries every state of a loop has a sum within `INT_MAX`, a
midpoint between `left` and `right`, and a read inside the array. -/
theorem searchStates_small (terms : List term) (test : term → Bool)
    (hn : (terms.length : Int) ≤ 1073741824) :
    ∀ s ∈ searchStates terms test (terms.length : Int).toNat 0 ((terms.length : Int) - 1),
      s.2 + s.1 ≤ INT_MAX ∧ s.1 ≤ Int.tdiv (s.2 + s.1) 2 ∧ Int.tdiv (s.2 + s.1) 2 ≤ s.2 ∧
        ∃ t : term, index terms (Int.tdiv (s.2 + s.1) 2) = some t := by
  intro s hs
  obtain ⟨b1, b2, b3⟩ := searchStates_inv terms test _ 0 _ (le_refl _) (by omega) s hs
  obtain ⟨hm1, hm2⟩ := mid_bounds s.1 s.2 b1 b2
  obtain ⟨t, ht, -⟩ := index_in_range terms (Int.tdiv (s.2 + s.1) 2) (by omega) (by omega)
  refine ⟨?_, hm1, hm2, t, ht⟩
  simp only [INT_MAX]
  omega

/-- On the store of `2^30 + 1` copies of `ant`, a loop whose test fails on `ant` reaches a
state whose sum exceeds `INT_MAX`. -/
theorem searchStates_big (test : term → Bool) (htest : test ⟨s_ant, .finite 1, by decide⟩ = false) :
    ∃ s ∈ searchStates bigStore test (bigStore.length : Int).toNat 0
      ((bigStore.length : Int) - 1), INT_MAX < s.2 + s.1 := by
  have hlen := bigStore_length
  have hreach := searchStates_reach bigStore test
    (fun i t ht => by rw [bigStore_index i t ht]; exact htest)
    (bigStore.length : Int).toNat 0 ((bigStore.length : Int) - 1) (le_refl _)
    (by omega) (by omega) (by omega)
  refine ⟨_, hreach, ?_⟩
  simp only [INT_MAX]
  omega

/-- C20 (midpoint arithmetic in 32-bit `int`): for every store of at most `2^30 = 1073741824`
entries, in every iteration of the loops of `lowest_match` and `highest_match` the sum
`right + left` is at most `INT_MAX = 2^31 - 1`, `mid` lies between `left` and `right`, and
`terms[mid]` is a read inside the array; for the store of `2^30 + 1` copies of `ant` and the
prefix "car", both loops reach an iteration whose sum `right + left` exceeds `INT_MAX`. -/
theorem midpoint_no_overflow (terms : List term) (substr : CString)
    (hn : (terms.length : Int) ≤ 1073741824) :
    (∀ s ∈ lowest_match_iterations terms terms.length substr,
      s.2 + s.1 ≤ INT_MAX ∧ s.1 ≤ Int.tdiv (s.2 + s.1) 2 ∧ Int.tdiv (s.2 + s.1) 2 ≤ s.2 ∧
        ∃ t : term, index terms (Int.tdiv (s.2 + s.1) 2) = some t) ∧
      (∀ s ∈ highest_match_iterations terms terms.length substr,
        s.2 + s.1 ≤ INT_MAX ∧ s.1 ≤ Int.tdiv (s.2 + s.1) 2 ∧ Int.tdiv (s.2 + s.1) 2 ≤ s.2 ∧
          ∃ t : term, index terms (Int.tdiv (s.2 + s.1) 2) = some t) ∧
      ((1073741824 : Int) < (bigStore.length : Int) ∧
        (∃ s ∈ lowest_match_iterations bigStore bigStore.length s_car, INT_MAX < s.2 + s.1) ∧
        (∃ s ∈ highest_match_iterations bigStore bigStore.length s_car,
          INT_MAX < s.2 + s.1)) := by
  refine ⟨?_, ?_, ?_, ?_, ?_⟩
  · intro s hs
    rw [lowest_match_iterations, lowest_match_states_eq] at hs
    exact searchStates_small terms _ hn s hs
  · intro s hs
    rw [highest_match_iterations, highest_match_states_eq] at hs
    exact searchStates_small terms _ hn s hs
  · have hlen := bigStore_length
    omega
  · rw [lowest_match_iterations, lowest_match_states_eq]
    exact searchStates_big _ (by decide)
  · rw [highest_match_iterations, highest_match_states_eq]
    exact searchStates_big _ (by decide)

theorem midpoint_no_overflow_witness :
    (store4.length : Int) ≤ 1073741824 ∧
      lowest_match_iterations store4 store4.length s_ap = [(0, 3), (0, 0)] ∧
      (∀ s ∈ lowest_match_iterations store4 store4.length s_ap,
        s.2 + s.1 ≤ INT_MAX ∧ s.1 ≤ Int.tdiv (s.2 + s.1) 2 ∧ Int.tdiv (s.2 + s.1) 2 ≤ s.2 ∧
          ∃ t : term, index store4 (Int.tdiv (s.2 + s.1) 2) = some t) :=
  ⟨by decide, by decide, (midpoint_no_overflow store4 s_ap (by decide)).1⟩


end Autocomplete
